import Mathlib

/-! Color Cell Compression decoder: `CCC_decode_blocks`.

A shallow embedding of `src/c_decoder.c` and the properties of its inner loop.

* `uint32_t` values are natural numbers; the additions of the source are
  reduced `% 2 ^ 32` explicitly, the `uint16_t` locals `% 2 ^ 16`.
* `uint8_t` values are `Fin 256`, which is also the index type of the three
  256-entry tables.
* `src` and `dst` are cursors (element offsets) into an input byte list and an
  output word list.  A load or store outside its list is `none`
  (undefined behaviour in C).  Every store is also appended to a ghost log, so
  that what was written can be stated.  `src` is `const ... restrict` and the
  tables are `extern const`, so the three regions are disjoint.
* Definitions named `spec_...` follow the wording of spec.md and are compared
  with the decoder; `doc_...` and `demo_...` are concrete table contents.
-/

namespace CCC

/-! ## Data model (`c_decoder.c` lines 11-27) -/

/-- One entry of `color_lut`: `typedef struct { uint32_t color0, color1; }`. -/
structure ColorLUTEntry where
  color0 : Nat
  color1 : Nat
deriving DecidableEq

/-- One entry of `codebook`: `typedef struct { uint32_t top, bottom; }`. -/
structure CodebookEntry where
  top : Nat
  bottom : Nat
deriving DecidableEq

/-- The three `extern const` tables, each with 256 entries. -/
structure Tables where
  color_lut : Fin 256 → ColorLUTEntry
  full_block_masks : Fin 256 → Nat
  codebook : Fin 256 → CodebookEntry

/-- Everything the call can address: the tables, the bytes `src` points into
and the words `dst` points into. -/
structure Memory where
  tables : Tables
  input : List (Fin 256)
  output : List Nat
  /-- Ghost field: the stores performed so far, oldest first, each as
  (output offset, word stored). -/
  written : List (Nat × Nat)

/-- The load `*src` at cursor `p`; `none` past the end of the input. -/
def load8 (m : Memory) (p : Nat) : Option (Fin 256) :=
  m.input[p]?

/-- The store `*dst = w` at cursor `p`; `none` past the end of the output. -/
def store32 (m : Memory) (p : Nat) (w : Nat) : Option Memory :=
  if p < m.output.length then
    some { m with output := m.output.set p w, written := m.written ++ [(p, w)] }
  else none

/-! ## The decoder (`c_decoder.c` lines 35-60) -/

/-- One iteration of the loop body (lines 39-57): returns the advanced `dst`,
the advanced `src` and the memory after the two stores. -/
def decode_block (m : Memory) (dst src : Nat) : Option (Nat × Nat × Memory) := do
  let h ← load8 m src
  let src1 := src + 1
  let colors := m.tables.color_lut h
  let color0lo := (colors.color0 &&& 0xFFFF) % 2 ^ 16
  let color1lo := (colors.color1 &&& 0xFFFF) % 2 ^ 16
  if color0lo = color1lo then
    -- Solid color block
    let m1 ← store32 m dst colors.color0
    let m2 ← store32 m1 (dst + 1) colors.color0
    some (dst + 2, src1, m2)
  else if color0lo < color1lo then
    -- Codebook block
    let p ← load8 m src1
    let mask := m.tables.codebook p
    let m1 ← store32 m dst ((colors.color1 + (colors.color0 &&& mask.top)) % 2 ^ 32)
    let m2 ← store32 m1 (dst + 1) ((colors.color1 + (colors.color0 &&& mask.bottom)) % 2 ^ 32)
    some (dst + 2, src1 + 1, m2)
  else
    -- Full block, color0 > color1
    let b1 ← load8 m src1
    let mask1 := m.tables.full_block_masks b1
    let m1 ← store32 m dst ((colors.color0 + (colors.color1 &&& mask1)) % 2 ^ 32)
    let b2 ← load8 m1 (src1 + 1)
    let mask2 := m1.tables.full_block_masks b2
    let m2 ← store32 m1 (dst + 1) ((colors.color0 + (colors.color1 &&& mask2)) % 2 ^ 32)
    some (dst + 2, src1 + 2, m2)

/-- The function `CCC_decode_blocks(dst, src, count)`: the loop
`for(; count > 0; --count)` around `decode_block`, then `return src`.
The result is the returned cursor and the memory after the call. -/
def CCC_decode_blocks (m : Memory) (dst src : Nat) : Nat → Option (Nat × Memory)
  | 0 => some (src, m)
  | count + 1 =>
    match decode_block m dst src with
    | none => none
    | some (dst1, src1, m1) => CCC_decode_blocks m1 dst1 src1 count

/-! ## The specification's reading of the format (spec.md sections 4.2 and 6) -/

/-- The three record classes of spec.md section 4.2. -/
inductive BlockKind where
  | solid
  | codebook
  | full
deriving DecidableEq

/-- Classification as spec.md words it: compare the low 16 bits `lo0`, `lo1` of
`color0` and `color1`; equal is solid, `lo0 < lo1` is codebook, otherwise full. -/
def spec_classify (e : ColorLUTEntry) : BlockKind :=
  if e.color0 % 2 ^ 16 = e.color1 % 2 ^ 16 then BlockKind.solid
  else if e.color0 % 2 ^ 16 < e.color1 % 2 ^ 16 then BlockKind.codebook
  else BlockKind.full

/-- Record length in bytes as spec.md words it: 1 for solid, 2 for codebook,
3 for full. -/
def spec_record_length : BlockKind → Nat
  | BlockKind.solid => 1
  | BlockKind.codebook => 2
  | BlockKind.full => 3

/-- What the specification says one record decodes to. -/
structure SpecBlock where
  kind : BlockKind
  top : Nat
  bottom : Nat
deriving DecidableEq

/-- The record starting at cursor `src` as spec.md section 4.2 describes it;
`none` when the input ends before or inside the record. -/
def spec_block (t : Tables) (input : List (Fin 256)) (src : Nat) : Option SpecBlock :=
  match input[src]? with
  | none => none
  | some h =>
    let e := t.color_lut h
    match spec_classify e with
    | BlockKind.solid => some ⟨BlockKind.solid, e.color0, e.color0⟩
    | BlockKind.codebook =>
      match input[src + 1]? with
      | none => none
      | some p =>
        some ⟨BlockKind.codebook,
          (e.color1 + (e.color0 &&& (t.codebook p).top)) % 2 ^ 32,
          (e.color1 + (e.color0 &&& (t.codebook p).bottom)) % 2 ^ 32⟩
    | BlockKind.full =>
      match input[src + 1]?, input[src + 2]? with
      | some b1, some b2 =>
        some ⟨BlockKind.full,
          (e.color0 + (e.color1 &&& t.full_block_masks b1)) % 2 ^ 32,
          (e.color0 + (e.color1 &&& t.full_block_masks b2)) % 2 ^ 32⟩
      | _, _ => none

/-- The `count` consecutive records starting at cursor `src`, in stream order;
`none` when the input is too short to hold them. -/
def spec_blocks (t : Tables) (input : List (Fin 256)) (src : Nat) :
    Nat → Option (List SpecBlock)
  | 0 => some []
  | count + 1 =>
    match spec_block t input src with
    | none => none
    | some b =>
      match spec_blocks t input (src + spec_record_length b.kind) count with
      | none => none
      | some bs => some (b :: bs)

/-- The output words of a list of records: top then bottom, record by record. -/
def spec_words : List SpecBlock → List Nat
  | [] => []
  | b :: bs => b.top :: b.bottom :: spec_words bs

/-- The input bytes taken by a list of records. -/
def spec_bytes : List SpecBlock → Nat
  | [] => 0
  | b :: bs => spec_record_length b.kind + spec_bytes bs

/-- How many records of a list are of a given kind. -/
def kind_count (k : BlockKind) : List SpecBlock → Nat
  | [] => 0
  | b :: bs => (if b.kind = k then 1 else 0) + kind_count k bs

/-- The cursor at which block number `k` (from 0) of a run starts: the cursor
`CCC_decode_blocks` returns after `k` blocks. -/
def block_start (m : Memory) (dst src k : Nat) : Option Nat :=
  (CCC_decode_blocks m dst src k).map Prod.fst

/-- The memory after the two stores of one block. -/
def after_block (m : Memory) (dst top bottom : Nat) : Memory :=
  { m with
    output := (m.output.set dst top).set (dst + 1) bottom
    written := m.written ++ [(dst, top), (dst + 1, bottom)] }

/-- The memory after a run has stored the words `ws` consecutively from `dst`. -/
def after_run (m : Memory) (dst : Nat) (ws : List Nat) : Memory :=
  { m with
    output := m.output.take dst ++ ws ++ m.output.drop (dst + ws.length)
    written := m.written ++ (List.range' dst ws.length).zip ws }

/-! ## Concrete tables for evaluation -/

/-- Modelled from the spec: the contents of `color_lut` (declared `extern` in
`c_decoder.c`, defined elsewhere): entry `b` is the high nibble of `b` and the
low nibble of `b`, each replicated into all 8 nibble lanes. -/
def doc_color_lut (b : Fin 256) : ColorLUTEntry :=
  ⟨(b.val / 16) * 0x11111111, (b.val % 16) * 0x11111111⟩

/-- Modelled from the spec: the contents of `full_block_masks` (declared
`extern` in `c_decoder.c`, defined elsewhere): bit `i` of the index expands to
nibble lane `i`, least significant first. -/
def doc_full_block_masks (b : Fin 256) : Nat :=
  ((List.range 8).map fun i => (b.val / 2 ^ i % 2) * (0xF * 16 ^ i)).sum

/-- Modelled from the spec: the contents of `codebook` are not in
`c_decoder.c` and the specification leaves the catalogue open; this stand-in
(pattern `p` on top, its complement below, both through `full_block_masks`)
is used for concrete evaluations only. -/
def demo_codebook (p : Fin 256) : CodebookEntry :=
  ⟨doc_full_block_masks p, doc_full_block_masks ⟨255 - p.val, by omega⟩⟩

/-- The documented tables together with the stand-in codebook. -/
def demo_tables : Tables :=
  ⟨doc_color_lut, doc_full_block_masks, demo_codebook⟩

/-- A memory over `demo_tables` with the given input bytes and output words
and an empty store log. -/
def demo_memory (input : List (Fin 256)) (output : List Nat) : Memory :=
  ⟨demo_tables, input, output, []⟩

/-! ## Nibble lanes of a packed word (spec.md glossary) -/

/-- Nibble lane `i` of a packed word: the 4-bit field at bits `4 * i .. 4 * i + 3`,
lane 0 being the least significant. -/
def nibble_lane (x i : Nat) : Nat :=
  x / 16 ^ i % 16

/-- The word whose nibble lanes, least significant first, are the given list. -/
def pack_lanes : List Nat → Nat
  | [] => 0
  | d :: ds => d + 16 * pack_lanes ds

/-- The header byte `h` with its two nibbles exchanged. -/
def swap_nibbles (h : Fin 256) : Fin 256 :=
  ⟨(h.val % 16) * 16 + h.val / 16, by omega⟩

/-! ## The loop body against the specification's record -/

/-- The mask-and-narrow `(uint16_t)(x & 0xFFFF)` is reduction modulo `2 ^ 16`. -/
theorem lo16_eq_mod (x : Nat) : (x &&& 0xFFFF) % 2 ^ 16 = x % 2 ^ 16 := by
  have h := Nat.and_pow_two_sub_one_eq_mod x 16
  norm_num at h
  rw [h]
  simp

/-- When the specification finds a record at `src` and two words fit at `dst`,
the loop body stores exactly that record's words and advances by its length. -/
theorem decode_block_of_spec (m : Memory) (dst src : Nat) (b : SpecBlock)
    (hb : spec_block m.tables m.input src = some b) (hout : dst + 2 ≤ m.output.length) :
    decode_block m dst src =
      some (dst + 2, src + spec_record_length b.kind, after_block m dst b.top b.bottom) := by
  have h0 : dst < m.output.length := by omega
  have h1 : dst + 1 < m.output.length := by omega
  unfold spec_block at hb
  unfold decode_block
  cases hh : m.input[src]? with
  | none => simp [hh] at hb
  | some h =>
    simp only [hh] at hb
    simp only [load8, hh, lo16_eq_mod, Option.bind_eq_bind, Option.some_bind]
    unfold spec_classify at hb
    by_cases hs : (m.tables.color_lut h).color0 % 2 ^ 16 = (m.tables.color_lut h).color1 % 2 ^ 16
    · simp only [hs, if_true] at hb
      cases hb
      rw [if_pos hs]
      simp [store32, h0, h1, after_block, spec_record_length]
    · by_cases hc : (m.tables.color_lut h).color0 % 2 ^ 16 < (m.tables.color_lut h).color1 % 2 ^ 16
      · simp only [hs, hc, if_true, if_false] at hb
        cases hp : m.input[src + 1]? with
        | none => simp [hp] at hb
        | some p =>
          simp only [hp] at hb
          cases hb
          rw [if_neg hs, if_pos hc]
          simp [hp, store32, h0, h1, after_block, spec_record_length]
      · simp only [hs, hc, if_false] at hb
        cases h1b : m.input[src + 1]? with
        | none => simp [h1b] at hb
        | some b1 =>
          cases h2b : m.input[src + 2]? with
          | none => simp [h1b, h2b] at hb
          | some b2 =>
            simp only [h1b, h2b] at hb
            cases hb
            rw [if_neg hs, if_neg hc]
            simp [h1b, h2b, store32, h0, h1, after_block, spec_record_length, Nat.add_assoc]

/-- When the loop body completes, the specification finds a record at `src`
and the two words fit at `dst`. -/
theorem decode_block_some (m : Memory) (dst src : Nat) (r : Nat × Nat × Memory)
    (hr : decode_block m dst src = some r) :
    ∃ b, spec_block m.tables m.input src = some b ∧ dst + 2 ≤ m.output.length := by
  unfold decode_block at hr
  unfold spec_block spec_classify
  cases hh : m.input[src]? with
  | none => simp [load8, hh] at hr
  | some h =>
    simp only [load8, hh, lo16_eq_mod, Option.bind_eq_bind, Option.some_bind] at hr
    by_cases hs : (m.tables.color_lut h).color0 % 2 ^ 16 = (m.tables.color_lut h).color1 % 2 ^ 16
    · rw [if_pos hs] at hr
      simp only [hs, if_true]
      refine ⟨_, rfl, ?_⟩
      by_cases h1 : dst + 1 < m.output.length
      · omega
      · exfalso
        by_cases h0 : dst < m.output.length
        · simp [store32, h0, h1] at hr
        · simp [store32, h0] at hr
    · rw [if_neg hs] at hr
      by_cases hc : (m.tables.color_lut h).color0 % 2 ^ 16 < (m.tables.color_lut h).color1 % 2 ^ 16
      · rw [if_pos hc] at hr
        simp only [hs, hc, if_true, if_false]
        cases hp : m.input[src + 1]? with
        | none => simp [hp] at hr
        | some p =>
          refine ⟨_, rfl, ?_⟩
          by_cases h1 : dst + 1 < m.output.length
          · omega
          · exfalso
            by_cases h0 : dst < m.output.length
            · simp [hp, store32, h0, h1] at hr
            · simp [hp, store32, h0] at hr
      · rw [if_neg hc] at hr
        simp only [hs, hc, if_false]
        cases h1b : m.input[src + 1]? with
        | none => simp [h1b] at hr
        | some b1 =>
          by_cases h0 : dst < m.output.length
          · cases h2b : m.input[src + 2]? with
            | none => simp [h1b, h2b, store32, h0, Nat.add_assoc] at hr
            | some b2 =>
              refine ⟨_, rfl, ?_⟩
              by_cases h1 : dst + 1 < m.output.length
              · omega
              · exfalso
                simp [h1b, h2b, store32, h0, h1, Nat.add_assoc] at hr
          · exfalso
            simp [h1b, store32, h0] at hr

/-! ## The loop against the specification's record list -/

theorem spec_blocks_length (t : Tables) (input : List (Fin 256)) (count : Nat) :
    ∀ (src : Nat) (bs : List SpecBlock),
      spec_blocks t input src count = some bs → bs.length = count := by
  induction count with
  | zero =>
    intro src bs h
    simp [spec_blocks] at h
    simp [← h]
  | succ n ih =>
    intro src bs h
    unfold spec_blocks at h
    cases hb : spec_block t input src with
    | none => simp [hb] at h
    | some b =>
      simp only [hb] at h
      cases hr : spec_blocks t input (src + spec_record_length b.kind) n with
      | none => simp [hr] at h
      | some bs1 =>
        simp only [hr, Option.some.injEq] at h
        subst h
        simp [ih _ _ hr]

theorem spec_words_length (bs : List SpecBlock) : (spec_words bs).length = 2 * bs.length := by
  induction bs with
  | nil => rfl
  | cons b bs ih => simp [spec_words, ih]; omega

theorem after_block_after_run (m : Memory) (dst top bottom : Nat) (ws : List Nat)
    (h : dst + 2 + ws.length ≤ m.output.length) :
    after_run (after_block m dst top bottom) (dst + 2) ws
      = after_run m dst (top :: bottom :: ws) := by
  have houtput : ((m.output.set dst top).set (dst + 1) bottom).take (dst + 2) ++ ws
        ++ ((m.output.set dst top).set (dst + 1) bottom).drop (dst + 2 + ws.length)
      = m.output.take dst ++ (top :: bottom :: ws)
        ++ m.output.drop (dst + (ws.length + 1 + 1)) := by
    have h0 : dst < m.output.length := by omega
    have h1 : dst + 1 < m.output.length := by omega
    have hd : ((m.output.set dst top).set (dst + 1) bottom).drop (dst + 2 + ws.length)
        = m.output.drop (dst + 2 + ws.length) := by
      rw [List.drop_set_of_lt _ _ (by omega), List.drop_set_of_lt _ _ (by omega)]
    have ht : ((m.output.set dst top).set (dst + 1) bottom).take (dst + 2)
        = m.output.take dst ++ [top, bottom] := by
      have e0 : (m.output.set dst top).take dst = m.output.take dst := by
        apply List.ext_getElem?
        intro i
        rw [List.getElem?_take, List.getElem?_take]
        split
        · rw [List.getElem?_set_ne (by omega)]
        · rfl
      rw [show dst + 2 = dst + 1 + 1 from rfl, List.take_succ, List.take_succ,
        List.take_set_of_lt _ _ (Nat.lt_succ_self dst), e0]
      simp [List.getElem?_set, h0, h1]
    rw [hd, ht]
    have e : dst + 2 + ws.length = dst + (ws.length + 1 + 1) := by omega
    simp [e]
  simp only [after_run, after_block, List.length_cons, houtput]
  simp [List.range'_succ, Nat.add_assoc]

theorem after_run_nil (m : Memory) (dst : Nat) : after_run m dst [] = m := by
  cases m
  simp [after_run]

/-- Refinement, forward: when the specification finds `count` records from
`src` and `2 * count` words fit from `dst`, the call returns the cursor just
past those records and has stored exactly their words, in order. -/
theorem decode_of_spec (count : Nat) :
    ∀ (m : Memory) (dst src : Nat) (bs : List SpecBlock),
      spec_blocks m.tables m.input src count = some bs →
      (count = 0 ∨ dst + 2 * count ≤ m.output.length) →
      CCC_decode_blocks m dst src count
        = some (src + spec_bytes bs, after_run m dst (spec_words bs)) := by
  induction count with
  | zero =>
    intro m dst src bs h _
    simp [spec_blocks] at h
    subst h
    simp [CCC_decode_blocks, spec_bytes, spec_words, after_run_nil]
  | succ n ih =>
    intro m dst src bs h hout
    have hout : dst + 2 * (n + 1) ≤ m.output.length := by omega
    unfold spec_blocks at h
    cases hb : spec_block m.tables m.input src with
    | none => simp [hb] at h
    | some b =>
      simp only [hb] at h
      cases hr : spec_blocks m.tables m.input (src + spec_record_length b.kind) n with
      | none => simp [hr] at h
      | some bs1 =>
        simp only [hr, Option.some.injEq] at h
        subst h
        have hlen : (spec_words bs1).length = 2 * n := by
          rw [spec_words_length, spec_blocks_length _ _ _ _ _ hr]
        unfold CCC_decode_blocks
        rw [decode_block_of_spec m dst src b hb (by omega)]
        simp only
        have hrec := ih (after_block m dst b.top b.bottom) (dst + 2)
          (src + spec_record_length b.kind) bs1 hr
          (Or.inr (by simp only [after_block, List.length_set]; omega))
        rw [hrec, after_block_after_run m dst b.top b.bottom (spec_words bs1) (by omega)]
        simp [spec_bytes, spec_words, Nat.add_assoc]

/-- Refinement, backward: when the call completes, the specification finds
`count` records from `src`, and the words fitted. -/
theorem decode_some_spec (count : Nat) :
    ∀ (m : Memory) (dst src : Nat) (r : Nat × Memory),
      CCC_decode_blocks m dst src count = some r →
      ∃ bs, spec_blocks m.tables m.input src count = some bs ∧
        (count = 0 ∨ dst + 2 * count ≤ m.output.length) := by
  induction count with
  | zero =>
    intro m dst src r _
    exact ⟨[], rfl, Or.inl rfl⟩
  | succ n ih =>
    intro m dst src r h
    unfold CCC_decode_blocks at h
    cases hd : decode_block m dst src with
    | none => simp [hd] at h
    | some r1 =>
      obtain ⟨b, hb, hout⟩ := decode_block_some m dst src r1 hd
      rw [decode_block_of_spec m dst src b hb hout] at hd h
      simp only at h
      obtain ⟨bs1, hbs1, hcap⟩ := ih _ _ _ _ h
      have hbs1' : spec_blocks m.tables m.input (src + spec_record_length b.kind) n
          = some bs1 := hbs1
      refine ⟨b :: bs1, ?_, Or.inr ?_⟩
      · unfold spec_blocks
        simp [hb, hbs1']
      · have hl : (after_block m dst b.top b.bottom).output.length = m.output.length := by
          simp [after_block]
        rw [hl] at hcap
        omega

/-! ## Reading the memory after a run -/

theorem spec_words_getElem (bs : List SpecBlock) :
    ∀ (k : Nat) (b : SpecBlock), bs[k]? = some b →
      (spec_words bs)[2 * k]? = some b.top ∧ (spec_words bs)[2 * k + 1]? = some b.bottom := by
  induction bs with
  | nil => intro k b h; simp at h
  | cons a as ih =>
    intro k b h
    cases k with
    | zero =>
      simp at h
      subst h
      simp [spec_words]
    | succ j =>
      simp at h
      obtain ⟨h1, h2⟩ := ih j b h
      have e1 : 2 * (j + 1) = 2 * j + 1 + 1 := by omega
      have e2 : 2 * (j + 1) + 1 = (2 * j + 1) + 1 + 1 := by omega
      rw [e1]
      simp [spec_words, h1, h2]

theorem after_run_output_length (m : Memory) (dst : Nat) (ws : List Nat)
    (h : dst + ws.length ≤ m.output.length) :
    (after_run m dst ws).output.length = m.output.length := by
  simp [after_run]
  omega

theorem after_run_output_window (m : Memory) (dst : Nat) (ws : List Nat)
    (h : dst + ws.length ≤ m.output.length) (i : Nat) (hi : i < ws.length) :
    (after_run m dst ws).output[dst + i]? = ws[i]? := by
  have e : min dst m.output.length = dst := by omega
  simp [after_run, List.getElem?_append, e, hi]

theorem after_run_output_frame (m : Memory) (dst : Nat) (ws : List Nat)
    (h : dst + ws.length ≤ m.output.length) (i : Nat)
    (hi : i < dst ∨ dst + ws.length ≤ i) :
    (after_run m dst ws).output[i]? = m.output[i]? := by
  have e : min dst m.output.length = dst := by omega
  rcases hi with hi | hi
  · have c : i < dst + ws.length := by omega
    simp [after_run, List.getElem?_append, List.getElem?_take, e, hi, c]
  · have c0 : ¬ i < dst := by omega
    have c1 : ¬ i - dst < ws.length := by omega
    have c2 : dst + ws.length + (i - dst - ws.length) = i := by omega
    simp [after_run, List.getElem?_append, e, c0, c1, c2]

theorem zip_range_getElem (dst : Nat) (ws : List Nat) (i : Nat) (w : Nat)
    (hw : ws[i]? = some w) :
    ((List.range' dst ws.length).zip ws)[i]? = some (dst + i, w) := by
  rcases List.getElem?_eq_some.mp hw with ⟨hi, hv⟩
  simp [List.getElem?_zip_eq_some, hw, List.getElem?_range', hi, hv]

/-! ## Prefixes of a run and block start positions -/

theorem spec_blocks_take (t : Tables) (input : List (Fin 256)) (count : Nat) :
    ∀ (src : Nat) (bs : List SpecBlock) (k : Nat),
      spec_blocks t input src count = some bs → k ≤ count →
      spec_blocks t input src k = some (bs.take k) := by
  induction count with
  | zero =>
    intro src bs k h hk
    have hk0 : k = 0 := by omega
    subst hk0
    simp [spec_blocks]
  | succ n ih =>
    intro src bs k h hk
    cases k with
    | zero => simp [spec_blocks]
    | succ j =>
      unfold spec_blocks at h
      unfold spec_blocks
      cases hb : spec_block t input src with
      | none => simp [hb] at h
      | some b =>
        simp only [hb] at h
        cases hr : spec_blocks t input (src + spec_record_length b.kind) n with
        | none => simp [hr] at h
        | some bs1 =>
          simp only [hr, Option.some.injEq] at h
          subst h
          simp [ih _ _ j hr (by omega)]

theorem spec_blocks_getElem (t : Tables) (input : List (Fin 256)) (count : Nat) :
    ∀ (src : Nat) (bs : List SpecBlock) (k : Nat),
      spec_blocks t input src count = some bs → k < count →
      ∃ b, bs[k]? = some b ∧ spec_block t input (src + spec_bytes (bs.take k)) = some b := by
  induction count with
  | zero => intro src bs k _ hk; omega
  | succ n ih =>
    intro src bs k h hk
    unfold spec_blocks at h
    cases hb : spec_block t input src with
    | none => simp [hb] at h
    | some b =>
      simp only [hb] at h
      cases hr : spec_blocks t input (src + spec_record_length b.kind) n with
      | none => simp [hr] at h
      | some bs1 =>
        simp only [hr, Option.some.injEq] at h
        subst h
        cases k with
        | zero => exact ⟨b, by simp, by simpa [spec_bytes] using hb⟩
        | succ j =>
          obtain ⟨b', hb1, hb2⟩ := ih _ _ j hr (by omega)
          refine ⟨b', by simpa using hb1, ?_⟩
          simpa [spec_bytes, Nat.add_assoc] using hb2

theorem spec_block_kind (t : Tables) (input : List (Fin 256)) (src : Nat) (b : SpecBlock)
    (hb : spec_block t input src = some b) :
    ∃ h, input[src]? = some h ∧ b.kind = spec_classify (t.color_lut h) := by
  unfold spec_block at hb
  cases hh : input[src]? with
  | none => simp [hh] at hb
  | some h =>
    refine ⟨h, rfl, ?_⟩
    simp only [hh] at hb
    cases hk : spec_classify (t.color_lut h) with
    | solid =>
      simp only [hk, Option.some.injEq] at hb
      rw [← hb]
    | codebook =>
      simp only [hk] at hb
      cases hp : input[src + 1]? with
      | none => simp [hp] at hb
      | some p =>
        simp only [hp, Option.some.injEq] at hb
        rw [← hb]
    | full =>
      simp only [hk] at hb
      cases h1 : input[src + 1]? with
      | none => simp [h1] at hb
      | some b1 =>
        cases h2 : input[src + 2]? with
        | none => simp [h1, h2] at hb
        | some b2 =>
          simp only [h1, h2, Option.some.injEq] at hb
          rw [← hb]

theorem block_start_of_spec (m : Memory) (dst src count : Nat) (bs : List SpecBlock)
    (hin : spec_blocks m.tables m.input src count = some bs)
    (hout : count = 0 ∨ dst + 2 * count ≤ m.output.length) (k : Nat) (hk : k ≤ count) :
    block_start m dst src k = some (src + spec_bytes (bs.take k)) := by
  have hpre := spec_blocks_take m.tables m.input count src bs k hin hk
  have hcap : k = 0 ∨ dst + 2 * k ≤ m.output.length := by omega
  simp [block_start, decode_of_spec k m dst src _ hpre hcap]

theorem spec_bytes_eq_kind_counts (bs : List SpecBlock) :
    spec_bytes bs = kind_count BlockKind.solid bs + 2 * kind_count BlockKind.codebook bs
      + 3 * kind_count BlockKind.full bs ∧
    kind_count BlockKind.solid bs + kind_count BlockKind.codebook bs
      + kind_count BlockKind.full bs = bs.length := by
  induction bs with
  | nil => simp [spec_bytes, kind_count]
  | cons b bs ih =>
    obtain ⟨ih1, ih2⟩ := ih
    cases hk : b.kind <;>
      simp [spec_bytes, kind_count, hk, spec_record_length] <;> omega

/-- A call with `count = 1` is one pass through the loop body. -/
theorem decode_one_of_spec (m : Memory) (dst src : Nat) (b : SpecBlock)
    (hb : spec_block m.tables m.input src = some b) (hout : dst + 2 ≤ m.output.length) :
    CCC_decode_blocks m dst src 1
      = some (src + spec_record_length b.kind, after_block m dst b.top b.bottom) := by
  unfold CCC_decode_blocks
  rw [decode_block_of_spec m dst src b hb hout]
  simp [CCC_decode_blocks]

/-- A stretch of `n` copies of a solid header is `n` solid records. -/
theorem spec_blocks_solid_run (t : Tables) (input : List (Fin 256)) (h : Fin 256)
    (hs : (t.color_lut h).color0 % 2 ^ 16 = (t.color_lut h).color1 % 2 ^ 16) (n : Nat) :
    ∀ (src : Nat), (∀ i, i < n → input[src + i]? = some h) →
      spec_blocks t input src n
        = some (List.replicate n
            ⟨BlockKind.solid, (t.color_lut h).color0, (t.color_lut h).color0⟩) := by
  induction n with
  | zero => intro src _; rfl
  | succ k ih =>
    intro src hrun
    have h0 : input[src]? = some h := by simpa using hrun 0 (by omega)
    have hb : spec_block t input src
        = some ⟨BlockKind.solid, (t.color_lut h).color0, (t.color_lut h).color0⟩ := by
      unfold spec_block spec_classify
      simp only [h0]
      rw [if_pos hs]
    have hrest := ih (src + 1) (fun i hi => by
      have := hrun (i + 1) (by omega)
      rw [← this]
      congr 1
      omega)
    unfold spec_blocks
    simp only [hb, spec_record_length, hrest, List.replicate_succ]

theorem spec_words_replicate (c : Nat) (n : Nat) :
    spec_words (List.replicate n ⟨BlockKind.solid, c, c⟩) = List.replicate (2 * n) c := by
  induction n with
  | zero => rfl
  | succ k ih =>
    have e : 2 * (k + 1) = 2 * k + 1 + 1 := by omega
    rw [e]
    simp [List.replicate_succ, spec_words, ih]

theorem spec_bytes_replicate (c : Nat) (n : Nat) :
    spec_bytes (List.replicate n ⟨BlockKind.solid, c, c⟩) = n := by
  induction n with
  | zero => rfl
  | succ k ih =>
    simp [List.replicate_succ, spec_bytes, spec_record_length, ih]
    omega

/-! ## When a run can fail -/

/-- The specification finds no record at `s` exactly when the input ends before
the header or inside the record the header announces. -/
theorem spec_block_eq_none_iff (t : Tables) (input : List (Fin 256)) (s : Nat) :
    spec_block t input s = none ↔
      (input.length ≤ s ∨ ∃ h, input[s]? = some h ∧
        input.length < s + spec_record_length (spec_classify (t.color_lut h))) := by
  unfold spec_block
  cases hh : input[s]? with
  | none =>
    have := List.getElem?_eq_none_iff.mp hh
    simp [this]
  | some h =>
    have hs : s < input.length := (List.getElem?_eq_some_iff.mp hh).1
    have hnot : ¬ input.length ≤ s := by omega
    simp only [hnot, false_or, Option.some.injEq, exists_eq_left']
    cases hk : spec_classify (t.color_lut h) with
    | solid =>
      simp [spec_record_length]
      omega
    | codebook =>
      cases hp : input[s + 1]? with
      | none =>
        have := List.getElem?_eq_none_iff.mp hp
        simp [spec_record_length]
        omega
      | some p =>
        have := (List.getElem?_eq_some_iff.mp hp).1
        simp [spec_record_length]
        omega
    | full =>
      cases h1 : input[s + 1]? with
      | none =>
        have := List.getElem?_eq_none_iff.mp h1
        simp [spec_record_length]
        omega
      | some b1 =>
        cases h2 : input[s + 2]? with
        | none =>
          have := List.getElem?_eq_none_iff.mp h2
          simp [spec_record_length]
          omega
        | some b2 =>
          have := (List.getElem?_eq_some_iff.mp h2).1
          simp [spec_record_length]
          omega

theorem spec_record_length_le (k : BlockKind) : spec_record_length k ≤ 3 := by
  cases k <;> simp [spec_record_length]

/-- Three bytes per block are always enough input. -/
theorem spec_blocks_of_enough (t : Tables) (input : List (Fin 256)) (count : Nat) :
    ∀ (src : Nat), src + 3 * count ≤ input.length →
      ∃ bs, spec_blocks t input src count = some bs := by
  induction count with
  | zero => intro src _; exact ⟨[], rfl⟩
  | succ n ih =>
    intro src hlen
    cases hb : spec_block t input src with
    | none =>
      exfalso
      rcases (spec_block_eq_none_iff t input src).mp hb with h | ⟨h, _, hl⟩
      · omega
      · have := spec_record_length_le (spec_classify (t.color_lut h))
        omega
    | some b =>
      have := spec_record_length_le b.kind
      obtain ⟨bs, hbs⟩ := ih (src + spec_record_length b.kind) (by omega)
      exact ⟨b :: bs, by unfold spec_blocks; simp [hb, hbs]⟩

/-- The call completes exactly when the records fit in the input and the words
fit in the output. -/
theorem decode_eq_none_iff (m : Memory) (dst src count : Nat) :
    CCC_decode_blocks m dst src count = none ↔
      (spec_blocks m.tables m.input src count = none ∨
        (0 < count ∧ m.output.length < dst + 2 * count)) := by
  constructor
  · intro hnone
    cases hs : spec_blocks m.tables m.input src count with
    | none => exact Or.inl rfl
    | some bs =>
      right
      by_cases hcap : count = 0 ∨ dst + 2 * count ≤ m.output.length
      · rw [decode_of_spec count m dst src bs hs hcap] at hnone
        simp at hnone
      · omega
  · intro h
    cases hd : CCC_decode_blocks m dst src count with
    | none => rfl
    | some r =>
      exfalso
      obtain ⟨bs, hbs, hcap⟩ := decode_some_spec count m dst src r hd
      rcases h with h | h
      · rw [hbs] at h
        simp at h
      · omega

/-- When the records do not fit, some record `k` is the first that does not:
the `k` records before it are found and none is found where they end. -/
theorem spec_blocks_eq_none (t : Tables) (input : List (Fin 256)) (count : Nat) :
    ∀ (src : Nat), spec_blocks t input src count = none →
      ∃ k bs, k < count ∧ spec_blocks t input src k = some bs ∧
        spec_block t input (src + spec_bytes bs) = none := by
  induction count with
  | zero => intro src h; simp [spec_blocks] at h
  | succ n ih =>
    intro src h
    cases hb : spec_block t input src with
    | none => exact ⟨0, [], by omega, rfl, by simpa [spec_bytes] using hb⟩
    | some b =>
      unfold spec_blocks at h
      simp only [hb] at h
      cases hr : spec_blocks t input (src + spec_record_length b.kind) n with
      | some bs1 => simp [hr] at h
      | none =>
        obtain ⟨k, bs, hk, hbs, hnone⟩ := ih _ hr
        refine ⟨k + 1, b :: bs, by omega, ?_, ?_⟩
        · unfold spec_blocks
          simp [hb, hbs]
        · simpa [spec_bytes, Nat.add_assoc] using hnone

/-! ## Runs on two memories with the same headers -/

/-- With the same `color_lut` and the same header bytes at the record starts of
the first stream, two streams split into records of the same kinds. -/
theorem spec_kinds_agree (t1 t2 : Tables) (in1 in2 : List (Fin 256))
    (hlut : t1.color_lut = t2.color_lut) (count : Nat) :
    ∀ (src : Nat) (bs1 bs2 : List SpecBlock),
      spec_blocks t1 in1 src count = some bs1 →
      spec_blocks t2 in2 src count = some bs2 →
      (∀ k, k < count →
        in1[src + spec_bytes (bs1.take k)]? = in2[src + spec_bytes (bs1.take k)]?) →
      bs1.map SpecBlock.kind = bs2.map SpecBlock.kind := by
  induction count with
  | zero =>
    intro src bs1 bs2 h1 h2 _
    simp [spec_blocks] at h1 h2
    subst h1 h2
    rfl
  | succ n ih =>
    intro src bs1 bs2 h1 h2 hhdr
    unfold spec_blocks at h1 h2
    cases hb1 : spec_block t1 in1 src with
    | none => simp [hb1] at h1
    | some b1 =>
      cases hb2 : spec_block t2 in2 src with
      | none => simp [hb2] at h2
      | some b2 =>
        simp only [hb1] at h1
        simp only [hb2] at h2
        cases hr1 : spec_blocks t1 in1 (src + spec_record_length b1.kind) n with
        | none => simp [hr1] at h1
        | some bs1' =>
          cases hr2 : spec_blocks t2 in2 (src + spec_record_length b2.kind) n with
          | none => simp [hr2] at h2
          | some bs2' =>
            simp only [hr1, Option.some.injEq] at h1
            simp only [hr2, Option.some.injEq] at h2
            subst h1 h2
            obtain ⟨x1, hx1, hk1⟩ := spec_block_kind _ _ _ _ hb1
            obtain ⟨x2, hx2, hk2⟩ := spec_block_kind _ _ _ _ hb2
            have h0 := hhdr 0 (by omega)
            simp only [List.take_zero, spec_bytes, Nat.add_zero] at h0
            rw [hx1, hx2, Option.some.injEq] at h0
            have hkind : b1.kind = b2.kind := by
              rw [hk1, hk2, hlut, h0]
            rw [← hkind] at hr2
            have hrest := ih _ _ _ hr1 hr2 (fun k hk => by
              have := hhdr (k + 1) (by omega)
              simpa [spec_bytes, Nat.add_assoc] using this)
            simp [hkind, hrest]

theorem spec_bytes_of_kinds (bs1 : List SpecBlock) :
    ∀ (bs2 : List SpecBlock), bs1.map SpecBlock.kind = bs2.map SpecBlock.kind →
      spec_bytes bs1 = spec_bytes bs2 := by
  induction bs1 with
  | nil =>
    intro bs2 h
    cases bs2 with
    | nil => rfl
    | cons b bs => simp at h
  | cons a as ih =>
    intro bs2 h
    cases bs2 with
    | nil => simp at h
    | cons b bs =>
      simp at h
      simp [spec_bytes, h.1, ih bs h.2]

/-! ## Splitting a run -/

/-- The loop body always advances `dst` by two. -/
theorem decode_block_dst (m : Memory) (dst src : Nat) (r : Nat × Nat × Memory)
    (hr : decode_block m dst src = some r) :
    r.1 = dst + 2 ∧ r.2.2.output.length = m.output.length := by
  obtain ⟨b, hb, hout⟩ := decode_block_some m dst src r hr
  rw [decode_block_of_spec m dst src b hb hout, Option.some.injEq] at hr
  subst hr
  simp [after_block]

theorem decode_succ (m : Memory) (dst src count : Nat) :
    CCC_decode_blocks m dst src (count + 1)
      = match decode_block m dst src with
        | none => none
        | some (dst1, src1, m1) => CCC_decode_blocks m1 dst1 src1 count := rfl

/-- A run of `a + b` blocks is a run of `a` blocks followed by a run of `b`
blocks from where the first stopped, failures included. -/
theorem decode_add (a : Nat) :
    ∀ (m : Memory) (dst src b : Nat),
      CCC_decode_blocks m dst src (a + b)
        = (CCC_decode_blocks m dst src a).bind
            fun r => CCC_decode_blocks r.2 (dst + 2 * a) r.1 b := by
  induction a with
  | zero =>
    intro m dst src b
    simp [CCC_decode_blocks]
  | succ n ih =>
    intro m dst src b
    have e : n + 1 + b = (n + b) + 1 := by omega
    rw [e, decode_succ, decode_succ]
    cases hd : decode_block m dst src with
    | none => simp
    | some r =>
      obtain ⟨d1, s1, m1⟩ := r
      have hdst := (decode_block_dst m dst src _ hd).1
      simp only at hdst
      subst hdst
      simp only
      rw [ih m1 (dst + 2) s1 b]
      have e2 : dst + 2 + 2 * n = dst + 2 * (n + 1) := by omega
      rw [e2]

/-! ## Lane arithmetic -/

/-- Bitwise AND works nibble by nibble. -/
theorem land_nibble_split (a b x y : Nat) (ha : a < 16) (hb : b < 16) :
    (a + 16 * x) &&& (b + 16 * y) = (a &&& b) + 16 * (x &&& y) := by
  apply Nat.eq_of_testBit_eq
  intro j
  have hab : a &&& b < 2 ^ 4 := Nat.and_lt_two_pow _ (by simpa using hb)
  have e1 := Nat.testBit_mul_pow_two_add x (show a < 2 ^ 4 by simpa using ha) j
  have e2 := Nat.testBit_mul_pow_two_add y (show b < 2 ^ 4 by simpa using hb) j
  have e3 := Nat.testBit_mul_pow_two_add (x &&& y) hab j
  norm_num at e1 e2 e3
  rw [Nat.testBit_and, Nat.add_comm a, Nat.add_comm b, Nat.add_comm (a &&& b), e1, e2, e3]
  split <;> simp [Nat.testBit_and]

theorem pack_lanes_land (b : Nat) (hb : b < 16) (ls : List Nat) (hls : ∀ d ∈ ls, d < 16) :
    pack_lanes (List.replicate ls.length b) &&& pack_lanes ls
      = pack_lanes (ls.map fun d => b &&& d) := by
  induction ls with
  | nil => simp [pack_lanes]
  | cons d ds ih =>
    have hd : d < 16 := hls d (by simp)
    have hds : ∀ e ∈ ds, e < 16 := fun e he => hls e (by simp [he])
    simp only [List.length_cons, List.replicate_succ, pack_lanes, List.map_cons]
    rw [land_nibble_split b d _ _ hb hd, ih hds]

theorem pack_lanes_add (a : Nat) (ls : List Nat) :
    pack_lanes (List.replicate ls.length a) + pack_lanes ls
      = pack_lanes (ls.map fun d => a + d) := by
  induction ls with
  | nil => simp [pack_lanes]
  | cons d ds ih =>
    simp only [List.length_cons, List.replicate_succ, pack_lanes, List.map_cons]
    rw [← ih]
    omega

theorem pack_lanes_lt (ls : List Nat) (hls : ∀ d ∈ ls, d < 16) :
    pack_lanes ls < 16 ^ ls.length := by
  induction ls with
  | nil => simp [pack_lanes]
  | cons d ds ih =>
    have hd : d < 16 := hls d (by simp)
    have hds := ih (fun e he => hls e (by simp [he]))
    simp only [pack_lanes, List.length_cons, Nat.pow_succ]
    omega

theorem nibble_lane_pack (ls : List Nat) (hls : ∀ d ∈ ls, d < 16) :
    ∀ (i d : Nat), ls[i]? = some d → nibble_lane (pack_lanes ls) i = d := by
  induction ls with
  | nil => intro i d h; simp at h
  | cons e es ih =>
    intro i d h
    have he : e < 16 := hls e (by simp)
    cases i with
    | zero =>
      simp at h
      subst h
      simp only [nibble_lane, pack_lanes, Nat.pow_zero, Nat.div_one]
      omega
    | succ j =>
      simp at h
      have hj := ih (fun x hx => hls x (by simp [hx])) j d h
      simp only [nibble_lane] at hj
      simp only [nibble_lane, pack_lanes, Nat.pow_succ]
      rw [Nat.mul_comm (16 ^ j) 16, ← Nat.div_div_eq_div_mul]
      have e1 : (e + 16 * pack_lanes es) / 16 = pack_lanes es := by omega
      rw [e1, hj]

theorem flat_eq_pack (a : Nat) : a * 0x11111111 = pack_lanes (List.replicate 8 a) := by
  simp only [List.replicate, pack_lanes]
  omega

/-- A 32-bit word is the packing of its eight nibble lanes. -/
theorem word_eq_pack (x : Nat) (hx : x < 2 ^ 32) :
    x = pack_lanes ((List.range 8).map (nibble_lane x)) := by
  rw [show List.range 8 = [0, 1, 2, 3, 4, 5, 6, 7] from rfl]
  simp only [List.map, pack_lanes, nibble_lane]
  norm_num at hx ⊢
  omega

/-- The additive composition of two flat words through a mask whose lanes are
`0x0` or `0xF`: when the two nibbles sum to at most 15 there is no wraparound,
and lane `i` is `a` where the mask lane is `0x0` and `a + b` where it is `0xF`. -/
theorem lane_of_masked_sum (a b : Nat) (hab : a + b ≤ 15) (ls : List Nat)
    (hl : ls.length = 8) (h015 : ∀ d ∈ ls, d = 0 ∨ d = 15) :
    a * 0x11111111 + ((b * 0x11111111) &&& pack_lanes ls) < 2 ^ 32 ∧
    ∀ (i d : Nat), ls[i]? = some d →
      nibble_lane ((a * 0x11111111 + ((b * 0x11111111) &&& pack_lanes ls)) % 2 ^ 32) i
        = if d = 0 then a else a + b := by
  have hb : b < 16 := by omega
  have hls : ∀ d ∈ ls, d < 16 := fun d hd => by
    rcases h015 d hd with h | h <;> omega
  have hb15 : b &&& 15 = b := by
    have := Nat.and_pow_two_sub_one_eq_mod b 4
    norm_num at this
    rw [this]
    omega
  have hsum : a * 0x11111111 + ((b * 0x11111111) &&& pack_lanes ls)
      = pack_lanes (ls.map fun d => a + (b &&& d)) := by
    rw [flat_eq_pack a, flat_eq_pack b, ← hl, pack_lanes_land b hb ls hls]
    have hlm : (ls.map fun d => b &&& d).length = ls.length := by simp
    rw [← hlm, pack_lanes_add a, List.map_map]
    rfl
  have hdig : ∀ d ∈ ls, a + (b &&& d) = if d = 0 then a else a + b := by
    intro d hd
    rcases h015 d hd with h | h
    · subst h
      simp
    · subst h
      simp [hb15]
  have hlt16 : ∀ e ∈ (ls.map fun d => a + (b &&& d)), e < 16 := by
    intro e he
    obtain ⟨d, hd, rfl⟩ := List.mem_map.mp he
    rw [hdig d hd]
    split <;> omega
  have hlt : pack_lanes (ls.map fun d => a + (b &&& d)) < 2 ^ 32 := by
    have := pack_lanes_lt _ hlt16
    simpa [hl] using this
  rw [hsum]
  refine ⟨hlt, ?_⟩
  intro i d hd
  rw [Nat.mod_eq_of_lt hlt]
  have hmem : d ∈ ls := List.getElem?_mem hd
  rw [← hdig d hmem]
  apply nibble_lane_pack _ hlt16
  simp [List.getElem?_map, hd]

/-- The documented `full_block_masks[b]` lane by lane: `0xF` where the bit of
`b` is set, `0x0` where it is clear. -/
theorem doc_full_block_masks_eq_pack (b : Fin 256) :
    doc_full_block_masks b
      = pack_lanes ((List.range 8).map fun i => (b.val / 2 ^ i % 2) * 15) := by
  unfold doc_full_block_masks
  rw [show List.range 8 = [0, 1, 2, 3, 4, 5, 6, 7] from rfl]
  simp only [List.map, pack_lanes, List.sum_cons, List.sum_nil]
  norm_num
  omega

/-- The same for a mask given as a 32-bit word. -/
theorem lane_of_masked_word (a b x : Nat) (hab : a + b ≤ 15) (hx : x < 2 ^ 32)
    (hx015 : ∀ i, i < 8 → nibble_lane x i = 0 ∨ nibble_lane x i = 15) :
    a * 0x11111111 + ((b * 0x11111111) &&& x) < 2 ^ 32 ∧
    ∀ i, i < 8 →
      nibble_lane ((a * 0x11111111 + ((b * 0x11111111) &&& x)) % 2 ^ 32) i
        = if nibble_lane x i = 0 then a else a + b := by
  have hpack := word_eq_pack x hx
  have hl : ((List.range 8).map (nibble_lane x)).length = 8 := by simp
  have h015 : ∀ d ∈ (List.range 8).map (nibble_lane x), d = 0 ∨ d = 15 := by
    intro d hd
    obtain ⟨i, hi, rfl⟩ := List.mem_map.mp hd
    exact hx015 i (List.mem_range.mp hi)
  obtain ⟨hlt, hlane⟩ := lane_of_masked_sum a b hab _ hl h015
  rw [← hpack] at hlt hlane
  refine ⟨hlt, ?_⟩
  intro i hi
  apply hlane i (nibble_lane x i)
  simp [List.getElem?_map, List.getElem?_range, hi]

/-- The lanes of the documented `full_block_masks[b]`. -/
theorem doc_full_block_masks_lanes (b : Fin 256) :
    doc_full_block_masks b < 2 ^ 32 ∧
    ∀ i, i < 8 → nibble_lane (doc_full_block_masks b) i = (b.val / 2 ^ i % 2) * 15 := by
  have hdig : ∀ d ∈ (List.range 8).map (fun i => (b.val / 2 ^ i % 2) * 15), d < 16 := by
    intro d hd
    obtain ⟨i, _, rfl⟩ := List.mem_map.mp hd
    have : b.val / 2 ^ i % 2 < 2 := Nat.mod_lt _ (by omega)
    omega
  rw [doc_full_block_masks_eq_pack]
  constructor
  · have := pack_lanes_lt _ hdig
    simpa using this
  · intro i hi
    apply nibble_lane_pack _ hdig
    simp [List.getElem?_map, List.getElem?_range, hi]

/-- On the documented `color_lut` the low 16 bits of the two colours compare as
the two nibbles of the header do. -/
theorem doc_color_lut_lo16 (h : Fin 256) :
    (doc_color_lut h).color0 % 2 ^ 16 = (h.val / 16) * 0x1111 ∧
    (doc_color_lut h).color1 % 2 ^ 16 = (h.val % 16) * 0x1111 := by
  have := h.isLt
  simp only [doc_color_lut]
  constructor <;> omega

/-- What the output holds where one block was stored. -/
theorem after_block_output (m : Memory) (dst top bottom : Nat)
    (hout : dst + 2 ≤ m.output.length) :
    (after_block m dst top bottom).output[dst]? = some top ∧
    (after_block m dst top bottom).output[dst + 1]? = some bottom := by
  have h0 : dst < m.output.length := by omega
  have h1 : dst + 1 < m.output.length := by omega
  simp only [after_block]
  constructor
  · rw [List.getElem?_set_ne (by omega), List.getElem?_set_self h0]
  · rw [List.getElem?_set_self (by simpa using h1)]

/-! ## Word bounds -/

/-- Every word of a record is below `2 ^ 32` when the `color0` entries are. -/
theorem spec_block_lt (t : Tables) (input : List (Fin 256)) (s : Nat) (b : SpecBlock)
    (hu32 : ∀ h, (t.color_lut h).color0 < 2 ^ 32)
    (hb : spec_block t input s = some b) : b.top < 2 ^ 32 ∧ b.bottom < 2 ^ 32 := by
  unfold spec_block at hb
  cases hh : input[s]? with
  | none => simp [hh] at hb
  | some h =>
    simp only [hh] at hb
    cases hk : spec_classify (t.color_lut h) with
    | solid =>
      simp only [hk, Option.some.injEq] at hb
      rw [← hb]
      exact ⟨hu32 h, hu32 h⟩
    | codebook =>
      simp only [hk] at hb
      cases hp : input[s + 1]? with
      | none => simp [hp] at hb
      | some p =>
        simp only [hp, Option.some.injEq] at hb
        rw [← hb]
        exact ⟨Nat.mod_lt _ (by norm_num), Nat.mod_lt _ (by norm_num)⟩
    | full =>
      simp only [hk] at hb
      cases h1 : input[s + 1]? with
      | none => simp [h1] at hb
      | some b1 =>
        cases h2 : input[s + 2]? with
        | none => simp [h1, h2] at hb
        | some b2 =>
          simp only [h1, h2, Option.some.injEq] at hb
          rw [← hb]
          exact ⟨Nat.mod_lt _ (by norm_num), Nat.mod_lt _ (by norm_num)⟩

theorem spec_words_lt (t : Tables) (input : List (Fin 256))
    (hu32 : ∀ h, (t.color_lut h).color0 < 2 ^ 32) (count : Nat) :
    ∀ (src : Nat) (bs : List SpecBlock), spec_blocks t input src count = some bs →
      ∀ w ∈ spec_words bs, w < 2 ^ 32 := by
  induction count with
  | zero =>
    intro src bs h w hw
    simp [spec_blocks] at h
    subst h
    simp [spec_words] at hw
  | succ n ih =>
    intro src bs h w hw
    unfold spec_blocks at h
    cases hb : spec_block t input src with
    | none => simp [hb] at h
    | some b =>
      simp only [hb] at h
      cases hr : spec_blocks t input (src + spec_record_length b.kind) n with
      | none => simp [hr] at h
      | some bs1 =>
        simp only [hr, Option.some.injEq] at h
        subst h
        obtain ⟨ht, hbt⟩ := spec_block_lt t input src b hu32 hb
        simp only [spec_words, List.mem_cons] at hw
        rcases hw with hw | hw | hw
        · rw [hw]; exact ht
        · rw [hw]; exact hbt
        · exact ih _ _ hr w hw

/-- The additive composition through a documented full-block mask, bit by bit
of the mask byte. -/
theorem doc_mask_lane_sum (a b : Nat) (hab : a + b ≤ 15) (mb : Fin 256) :
    a * 0x11111111 + ((b * 0x11111111) &&& doc_full_block_masks mb) < 2 ^ 32 ∧
    ∀ i, i < 8 →
      nibble_lane ((a * 0x11111111 + ((b * 0x11111111) &&& doc_full_block_masks mb))
          % 2 ^ 32) i
        = if mb.val / 2 ^ i % 2 = 0 then a else a + b := by
  obtain ⟨hlt, hlanes⟩ := doc_full_block_masks_lanes mb
  have h015 : ∀ i, i < 8 → nibble_lane (doc_full_block_masks mb) i = 0 ∨
      nibble_lane (doc_full_block_masks mb) i = 15 := by
    intro i hi
    rw [hlanes i hi]
    have : mb.val / 2 ^ i % 2 < 2 := Nat.mod_lt _ (by omega)
    omega
  obtain ⟨hno, hl⟩ := lane_of_masked_word a b _ hab hlt h015
  refine ⟨hno, ?_⟩
  intro i hi
  rw [hl i hi, hlanes i hi]
  have : mb.val / 2 ^ i % 2 < 2 := Nat.mod_lt _ (by omega)
  by_cases hz : mb.val / 2 ^ i % 2 = 0
  · rw [if_pos hz, if_pos (by omega)]
  · rw [if_neg hz, if_neg (by omega)]

/-! ## A record depends on its own bytes only -/

theorem spec_bytes_take_succ (bs : List SpecBlock) :
    ∀ (k : Nat) (b : SpecBlock), bs[k]? = some b →
      spec_bytes (bs.take (k + 1)) = spec_bytes (bs.take k) + spec_record_length b.kind := by
  induction bs with
  | nil => intro k b h; simp at h
  | cons a as ih =>
    intro k b h
    cases k with
    | zero =>
      simp at h
      subst h
      simp [spec_bytes]
    | succ j =>
      simp at h
      have := ih j b h
      simp only [List.take_succ_cons, spec_bytes, this]
      omega

/-- The record the specification finds at a cursor is decided by the tables and
by the bytes of that record alone: an input that holds the same bytes over the
record's length, at whatever cursor, holds the same record there. -/
theorem spec_block_congr (t : Tables) (in1 in2 : List (Fin 256)) (s s2 : Nat)
    (b : SpecBlock) (hb : spec_block t in1 s = some b)
    (hag : ∀ j, j < spec_record_length b.kind → in2[s2 + j]? = in1[s + j]?) :
    spec_block t in2 s2 = some b := by
  obtain ⟨h, hh, hkind⟩ := spec_block_kind t in1 s b hb
  unfold spec_block at hb ⊢
  simp only [hh] at hb
  cases hk : spec_classify (t.color_lut h) with
  | solid =>
    rw [hkind, hk] at hag
    have h0 := hag 0 (by simp [spec_record_length])
    simp only [Nat.add_zero] at h0
    simp only [hk] at hb
    simp only [h0, hh, hk]
    exact hb
  | codebook =>
    rw [hkind, hk] at hag
    have h0 := hag 0 (by simp [spec_record_length])
    have h1 := hag 1 (by simp [spec_record_length])
    simp only [Nat.add_zero] at h0
    simp only [hk] at hb
    simp only [h0, h1, hh, hk]
    exact hb
  | full =>
    rw [hkind, hk] at hag
    have h0 := hag 0 (by simp [spec_record_length])
    have h1 := hag 1 (by simp [spec_record_length])
    have h2 := hag 2 (by simp [spec_record_length])
    simp only [Nat.add_zero] at h0
    simp only [hk] at hb
    simp only [h0, h1, h2, hh, hk]
    exact hb

/-! ## The claims -/

set_option maxRecDepth 100000

/-- C1: for every tables, every `count` (in particular every value of the
16-bit `CCC_size_t`) and every input holding `count` records from `src`, with
room for `2 * count` words from `dst`, the call completes and performs exactly
`2 * count` stores, at the consecutive offsets `dst, dst + 1, ...`; stores
`2 * k` and `2 * k + 1` are the top word and then the bottom word of record
`k`, and that is what the output holds at `dst + 2 * k` and `dst + 2 * k + 1`
after the call. -/
theorem decode_writes_two_words_per_block (m : Memory) (dst src count : Nat)
    (bs : List SpecBlock)
    (hin : spec_blocks m.tables m.input src count = some bs)
    (hout : dst + 2 * count ≤ m.output.length) :
    ∃ src' m' L, CCC_decode_blocks m dst src count = some (src', m') ∧
      m'.written = m.written ++ L ∧ L.length = 2 * count ∧
      L.map Prod.fst = List.range' dst (2 * count) ∧
      ∀ k, k < count → ∃ b, bs[k]? = some b ∧
        L[2 * k]? = some (dst + 2 * k, b.top) ∧
        L[2 * k + 1]? = some (dst + 2 * k + 1, b.bottom) ∧
        m'.output[dst + 2 * k]? = some b.top ∧
        m'.output[dst + 2 * k + 1]? = some b.bottom := by
  have hlen : bs.length = count := spec_blocks_length _ _ _ _ _ hin
  have hwl : (spec_words bs).length = 2 * count := by rw [spec_words_length, hlen]
  refine ⟨src + spec_bytes bs, after_run m dst (spec_words bs),
    (List.range' dst (spec_words bs).length).zip (spec_words bs),
    decode_of_spec count m dst src bs hin (Or.inr hout), rfl, ?_, ?_, ?_⟩
  · simp [hwl]
  · rw [List.map_fst_zip]
    · rw [hwl]
    · simp
  · intro k hk
    have hkb : k < bs.length := by omega
    refine ⟨bs[k], List.getElem?_eq_getElem hkb, ?_⟩
    obtain ⟨ht, hb⟩ := spec_words_getElem bs k bs[k] (List.getElem?_eq_getElem hkb)
    refine ⟨zip_range_getElem dst _ _ _ ht, ?_, ?_, ?_⟩
    · have := zip_range_getElem dst _ _ _ hb
      rw [this, Nat.add_assoc]
    · rw [after_run_output_window m dst _ (by omega) _ (by omega), ht]
    · rw [Nat.add_assoc, after_run_output_window m dst _ (by omega) _ (by omega), hb]

/-- C1 at a solid, a codebook and a full record decoded into offsets 1..6 of a
seven-word buffer. -/
theorem decode_writes_two_words_per_block_witness :
    spec_blocks (demo_memory [0x00, 0x12, 0x03, 0x21, 0x01, 0x80] [7, 7, 7, 7, 7, 7, 7]).tables
        (demo_memory [0x00, 0x12, 0x03, 0x21, 0x01, 0x80] [7, 7, 7, 7, 7, 7, 7]).input 0 3
      = some [⟨BlockKind.solid, 0, 0⟩,
          ⟨BlockKind.codebook, 0x22222233, 0x33333322⟩,
          ⟨BlockKind.full, 0x22222223, 0x32222222⟩] ∧
    1 + 2 * 3 ≤ (demo_memory [0x00, 0x12, 0x03, 0x21, 0x01, 0x80] [7, 7, 7, 7, 7, 7, 7]).output.length ∧
    ∃ src' m' L,
      CCC_decode_blocks (demo_memory [0x00, 0x12, 0x03, 0x21, 0x01, 0x80] [7, 7, 7, 7, 7, 7, 7])
        1 0 3 = some (src', m') ∧
      m'.written = [] ++ L ∧ L.length = 2 * 3 ∧
      L.map Prod.fst = List.range' 1 (2 * 3) ∧
      ∀ k, k < 3 → ∃ b,
        [(⟨BlockKind.solid, 0, 0⟩ : SpecBlock),
          ⟨BlockKind.codebook, 0x22222233, 0x33333322⟩,
          ⟨BlockKind.full, 0x22222223, 0x32222222⟩][k]? = some b ∧
        L[2 * k]? = some (1 + 2 * k, b.top) ∧
        L[2 * k + 1]? = some (1 + 2 * k + 1, b.bottom) ∧
        m'.output[1 + 2 * k]? = some b.top ∧
        m'.output[1 + 2 * k + 1]? = some b.bottom :=
  ⟨by decide, by decide,
    decode_writes_two_words_per_block
      (demo_memory [0x00, 0x12, 0x03, 0x21, 0x01, 0x80] [7, 7, 7, 7, 7, 7, 7]) 1 0 3 _
      (by decide) (by decide)⟩

/-- C2: for every tables, input and `count` for which the records and the
words fit, the call returns the start cursor plus (number of solid blocks)
+ 2 * (number of codebook blocks) + 3 * (number of full blocks), the kinds
being those of the headers found at the `count` block start positions of the
run; so the bytes consumed lie between `count` and `3 * count`. -/
theorem decode_cursor_counts_record_lengths (m : Memory) (dst src count : Nat)
    (bs : List SpecBlock)
    (hin : spec_blocks m.tables m.input src count = some bs)
    (hout : count = 0 ∨ dst + 2 * count ≤ m.output.length) :
    ∃ m', CCC_decode_blocks m dst src count
        = some (src + (kind_count BlockKind.solid bs + 2 * kind_count BlockKind.codebook bs
            + 3 * kind_count BlockKind.full bs), m') ∧
      kind_count BlockKind.solid bs + kind_count BlockKind.codebook bs
        + kind_count BlockKind.full bs = count ∧
      (∀ k, k < count → ∃ s h b, block_start m dst src k = some s ∧
        m.input[s]? = some h ∧ bs[k]? = some b ∧
        b.kind = spec_classify (m.tables.color_lut h)) ∧
      count ≤ kind_count BlockKind.solid bs + 2 * kind_count BlockKind.codebook bs
        + 3 * kind_count BlockKind.full bs ∧
      kind_count BlockKind.solid bs + 2 * kind_count BlockKind.codebook bs
        + 3 * kind_count BlockKind.full bs ≤ 3 * count := by
  have hlen : bs.length = count := spec_blocks_length _ _ _ _ _ hin
  obtain ⟨hbytes, hsum⟩ := spec_bytes_eq_kind_counts bs
  refine ⟨after_run m dst (spec_words bs), ?_, by omega, ?_, by omega, by omega⟩
  · rw [← hbytes]
    exact decode_of_spec count m dst src bs hin hout
  · intro k hk
    obtain ⟨b, hb1, hb2⟩ := spec_blocks_getElem _ _ _ _ _ k hin hk
    obtain ⟨h, hh1, hh2⟩ := spec_block_kind _ _ _ _ hb2
    exact ⟨_, h, b, block_start_of_spec m dst src count bs hin hout k (by omega), hh1, hb1, hh2⟩

/-- C2 at one solid, one codebook and one full record: 1 + 2 + 3 = 6 bytes. -/
theorem decode_cursor_counts_record_lengths_witness :
    ∃ m', CCC_decode_blocks
        (demo_memory [0x00, 0x12, 0x03, 0x21, 0x01, 0x80] [7, 7, 7, 7, 7, 7, 7]) 1 0 3
      = some (6, m') :=
  (decode_cursor_counts_record_lengths
    (demo_memory [0x00, 0x12, 0x03, 0x21, 0x01, 0x80] [7, 7, 7, 7, 7, 7, 7]) 1 0 3
    [⟨BlockKind.solid, 0, 0⟩, ⟨BlockKind.codebook, 0x22222233, 0x33333322⟩,
      ⟨BlockKind.full, 0x22222223, 0x32222222⟩]
    (by decide) (Or.inr (by decide))).imp fun _ h => h.1

/-- C3: a header whose two colours agree in their low 16 bits is a solid
block: decoding one block there consumes exactly 1 input byte (nothing after
the header is read) and stores `color0` twice, at `dst` and `dst + 1`;
`color1` is not stored. In particular, with `color_lut[0x00] = (0, 0)`, input
`[0x00]` and `count = 1` give output `[0, 0]` and returned cursor 1. -/
theorem solid_block_decodes :
    (∀ (m : Memory) (dst src : Nat) (h : Fin 256),
      m.input[src]? = some h →
      (m.tables.color_lut h).color0 % 2 ^ 16 = (m.tables.color_lut h).color1 % 2 ^ 16 →
      dst + 2 ≤ m.output.length →
      CCC_decode_blocks m dst src 1 = some (src + 1,
        { m with
          output := (m.output.set dst (m.tables.color_lut h).color0).set (dst + 1)
            (m.tables.color_lut h).color0
          written := m.written ++ [(dst, (m.tables.color_lut h).color0),
            (dst + 1, (m.tables.color_lut h).color0)] })) ∧
    (∀ (t : Tables) (o0 o1 : Nat) (w : List (Nat × Nat)),
      t.color_lut 0x00 = ⟨0x00000000, 0x00000000⟩ →
      CCC_decode_blocks ⟨t, [0x00], [o0, o1], w⟩ 0 0 1
        = some (1, ⟨t, [0x00], [0x00000000, 0x00000000], w ++ [(0, 0), (1, 0)]⟩)) := by
  have gen : ∀ (m : Memory) (dst src : Nat) (h : Fin 256),
      m.input[src]? = some h →
      (m.tables.color_lut h).color0 % 2 ^ 16 = (m.tables.color_lut h).color1 % 2 ^ 16 →
      dst + 2 ≤ m.output.length →
      CCC_decode_blocks m dst src 1 = some (src + 1,
        after_block m dst (m.tables.color_lut h).color0 (m.tables.color_lut h).color0) := by
    intro m dst src h hh hs hout
    have hb : spec_block m.tables m.input src
        = some ⟨BlockKind.solid, (m.tables.color_lut h).color0,
            (m.tables.color_lut h).color0⟩ := by
      unfold spec_block spec_classify
      simp only [hh]
      rw [if_pos hs]
    exact decode_one_of_spec m dst src _ hb hout
  refine ⟨gen, ?_⟩
  intro t o0 o1 w ht
  have := gen ⟨t, [0x00], [o0, o1], w⟩ 0 0 0x00 rfl (by simp [ht]) (by simp)
  simpa [after_block, ht] using this

/-- C3 on the documented `color_lut`: header `0x33` is solid and decodes to
`0x33333333` twice from a one-byte input. -/
theorem solid_block_decodes_witness :
    CCC_decode_blocks (demo_memory [0x33] [7, 7, 7]) 1 0 1
      = some (1, ⟨demo_tables, [0x33], [7, 0x33333333, 0x33333333],
          [(1, 0x33333333), (2, 0x33333333)]⟩) :=
  solid_block_decodes.1 (demo_memory [0x33] [7, 7, 7]) 1 0 0x33 (by decide) (by decide)
    (by decide)

/-- C4: a header with `color0`'s low 16 bits below `color1`'s is a codebook
block: decoding one block there consumes exactly 2 input bytes (the header `h`
and the pattern index `p`) and stores
`(color1 + (color0 AND codebook[p].top)) mod 2^32` at `dst`, then
`(color1 + (color0 AND codebook[p].bottom)) mod 2^32` at `dst + 1`. -/
theorem codebook_block_decodes (m : Memory) (dst src : Nat) (h p : Fin 256)
    (hh : m.input[src]? = some h) (hp : m.input[src + 1]? = some p)
    (hlt : (m.tables.color_lut h).color0 % 2 ^ 16 < (m.tables.color_lut h).color1 % 2 ^ 16)
    (hout : dst + 2 ≤ m.output.length) :
    CCC_decode_blocks m dst src 1 = some (src + 2,
      { m with
        output := (m.output.set dst
            (((m.tables.color_lut h).color1
              + ((m.tables.color_lut h).color0 &&& (m.tables.codebook p).top)) % 2 ^ 32)).set
          (dst + 1)
            (((m.tables.color_lut h).color1
              + ((m.tables.color_lut h).color0 &&& (m.tables.codebook p).bottom)) % 2 ^ 32)
        written := m.written ++
          [(dst, ((m.tables.color_lut h).color1
              + ((m.tables.color_lut h).color0 &&& (m.tables.codebook p).top)) % 2 ^ 32),
            (dst + 1, ((m.tables.color_lut h).color1
              + ((m.tables.color_lut h).color0 &&& (m.tables.codebook p).bottom)) % 2 ^ 32)] }) := by
  have hb : spec_block m.tables m.input src
      = some ⟨BlockKind.codebook,
          ((m.tables.color_lut h).color1
            + ((m.tables.color_lut h).color0 &&& (m.tables.codebook p).top)) % 2 ^ 32,
          ((m.tables.color_lut h).color1
            + ((m.tables.color_lut h).color0 &&& (m.tables.codebook p).bottom)) % 2 ^ 32⟩ := by
    unfold spec_block spec_classify
    simp only [hh]
    rw [if_neg (by omega), if_pos hlt]
    simp only [hp]
  exact decode_one_of_spec m dst src _ hb hout

/-- C4 on the documented `color_lut`: header `0x12` with pattern `0x03` of the
stand-in codebook, from a two-byte input. -/
theorem codebook_block_decodes_witness :
    CCC_decode_blocks (demo_memory [0x12, 0x03] [7, 7, 7]) 1 0 1
      = some (2, ⟨demo_tables, [0x12, 0x03], [7, 0x22222233, 0x33333322],
          [(1, 0x22222233), (2, 0x33333322)]⟩) :=
  codebook_block_decodes (demo_memory [0x12, 0x03] [7, 7, 7]) 1 0 0x12 0x03
    (by decide) (by decide) (by decide) (by decide)

/-- C5: a header with `color0`'s low 16 bits above `color1`'s is a full block:
decoding one block there consumes exactly 3 input bytes (the header `h` and the
mask bytes `m1`, `m2`) and stores
`(color0 + (color1 AND full_block_masks[m1])) mod 2^32` at `dst`, then
`(color0 + (color1 AND full_block_masks[m2])) mod 2^32` at `dst + 1`: the
earlier mask byte makes the top word, the later one the bottom word. -/
theorem full_block_decodes (m : Memory) (dst src : Nat) (h m1 m2 : Fin 256)
    (hh : m.input[src]? = some h) (h1 : m.input[src + 1]? = some m1)
    (h2 : m.input[src + 2]? = some m2)
    (hgt : (m.tables.color_lut h).color0 % 2 ^ 16 > (m.tables.color_lut h).color1 % 2 ^ 16)
    (hout : dst + 2 ≤ m.output.length) :
    CCC_decode_blocks m dst src 1 = some (src + 3,
      { m with
        output := (m.output.set dst
            (((m.tables.color_lut h).color0
              + ((m.tables.color_lut h).color1 &&& m.tables.full_block_masks m1)) % 2 ^ 32)).set
          (dst + 1)
            (((m.tables.color_lut h).color0
              + ((m.tables.color_lut h).color1 &&& m.tables.full_block_masks m2)) % 2 ^ 32)
        written := m.written ++
          [(dst, ((m.tables.color_lut h).color0
              + ((m.tables.color_lut h).color1 &&& m.tables.full_block_masks m1)) % 2 ^ 32),
            (dst + 1, ((m.tables.color_lut h).color0
              + ((m.tables.color_lut h).color1 &&& m.tables.full_block_masks m2)) % 2 ^ 32)] }) := by
  have hb : spec_block m.tables m.input src
      = some ⟨BlockKind.full,
          ((m.tables.color_lut h).color0
            + ((m.tables.color_lut h).color1 &&& m.tables.full_block_masks m1)) % 2 ^ 32,
          ((m.tables.color_lut h).color0
            + ((m.tables.color_lut h).color1 &&& m.tables.full_block_masks m2)) % 2 ^ 32⟩ := by
    unfold spec_block spec_classify
    simp only [hh]
    rw [if_neg (by omega), if_neg (by omega)]
    simp only [h1, h2]
  exact decode_one_of_spec m dst src _ hb hout

/-- C5 on the documented tables: header `0x21` with mask bytes `0x01`, `0x80`,
from a three-byte input. -/
theorem full_block_decodes_witness :
    CCC_decode_blocks (demo_memory [0x21, 0x01, 0x80] [7, 7, 7]) 1 0 1
      = some (3, ⟨demo_tables, [0x21, 0x01, 0x80], [7, 0x22222223, 0x32222222],
          [(1, 0x22222223), (2, 0x32222222)]⟩) :=
  full_block_decodes (demo_memory [0x21, 0x01, 0x80] [7, 7, 7]) 1 0 0x21 0x01 0x80
    (by decide) (by decide) (by decide) (by decide) (by decide)

/-- C6: with `count = 0` the call returns the input cursor unchanged and leaves
the memory as it found it, store log included: no word is written. It does so
for every memory, the one with no input byte at all among them, so no input
byte is read. -/
theorem decode_zero_blocks (m : Memory) (dst src : Nat) :
    CCC_decode_blocks m dst src 0 = some (src, m) ∧
    (∀ (t : Tables) (out : List Nat) (w : List (Nat × Nat)),
      CCC_decode_blocks ⟨t, [], out, w⟩ dst src 0 = some (src, ⟨t, [], out, w⟩)) :=
  ⟨rfl, fun _ _ _ => rfl⟩

/-- C7: for every tables, every header byte `h` that `color_lut` classifies as
solid and every `n`, decoding `n` blocks from the input made of `n` copies of
`h` returns cursor `n` (exactly `n` bytes consumed) and stores `2 * n` words,
all equal to `color_lut[h].color0`, at the offsets `dst, ..., dst + 2 * n - 1`. -/
theorem solid_run_decodes (t : Tables) (out : List Nat) (w : List (Nat × Nat))
    (dst n : Nat) (h : Fin 256)
    (hs : (t.color_lut h).color0 % 2 ^ 16 = (t.color_lut h).color1 % 2 ^ 16)
    (hout : dst + 2 * n ≤ out.length) :
    CCC_decode_blocks ⟨t, List.replicate n h, out, w⟩ dst 0 n
      = some (n, ⟨t, List.replicate n h,
          out.take dst ++ List.replicate (2 * n) (t.color_lut h).color0
            ++ out.drop (dst + 2 * n),
          w ++ (List.range' dst (2 * n)).zip
            (List.replicate (2 * n) (t.color_lut h).color0)⟩) := by
  have hin := spec_blocks_solid_run t (List.replicate n h) h hs n 0 (fun i hi => by
    simp [List.getElem?_replicate, hi])
  have hrun := decode_of_spec n ⟨t, List.replicate n h, out, w⟩ dst 0 _ hin (Or.inr hout)
  rw [hrun, spec_bytes_replicate, spec_words_replicate]
  simp [after_run]

/-- C7 on the documented `color_lut`: three copies of the solid header `0x55`. -/
theorem solid_run_decodes_witness :
    CCC_decode_blocks ⟨demo_tables, [0x55, 0x55, 0x55], [7, 7, 7, 7, 7, 7, 7, 7], []⟩ 1 0 3
      = some (3, ⟨demo_tables, [0x55, 0x55, 0x55],
          [7, 0x55555555, 0x55555555, 0x55555555, 0x55555555, 0x55555555, 0x55555555, 7],
          [(1, 0x55555555), (2, 0x55555555), (3, 0x55555555), (4, 0x55555555),
            (5, 0x55555555), (6, 0x55555555)]⟩) :=
  solid_run_decodes demo_tables [7, 7, 7, 7, 7, 7, 7, 7] [] 1 3 0x55 (by decide) (by decide)

/-- C8: in the bounds-checked embedding, for every tables and every byte
content, `3 * count` input bytes from `src` and `2 * count` output words from
`dst` are enough for the call to complete. When a call does not complete,
either the output is shorter than `dst + 2 * count` words, or the input is
shorter than `src + 3 * count` bytes and runs out at some record `k`: before
its header, or inside the record that header announces. No byte value is
rejected. For example a run that reaches a non-solid header on the last input
byte fails. -/
theorem decode_fails_only_on_short_buffers (m : Memory) (dst src count : Nat) :
    (src + 3 * count ≤ m.input.length → dst + 2 * count ≤ m.output.length →
      ∃ r, CCC_decode_blocks m dst src count = some r) ∧
    (CCC_decode_blocks m dst src count = none →
      (m.input.length < src + 3 * count ∧
        ∃ k bs, k < count ∧ spec_blocks m.tables m.input src k = some bs ∧
          (m.input.length ≤ src + spec_bytes bs ∨
            ∃ h, m.input[src + spec_bytes bs]? = some h ∧
              m.input.length < src + spec_bytes bs
                + spec_record_length (spec_classify (m.tables.color_lut h)))) ∨
      m.output.length < dst + 2 * count) ∧
    (∀ h, m.input[src]? = some h → m.input.length = src + 1 →
      (m.tables.color_lut h).color0 % 2 ^ 16 ≠ (m.tables.color_lut h).color1 % 2 ^ 16 →
      CCC_decode_blocks m dst src 1 = none) := by
  refine ⟨?_, ?_, ?_⟩
  · intro hin hout
    obtain ⟨bs, hbs⟩ := spec_blocks_of_enough m.tables m.input count src hin
    exact ⟨_, decode_of_spec count m dst src bs hbs (Or.inr hout)⟩
  · intro hnone
    rcases (decode_eq_none_iff m dst src count).mp hnone with h | h
    · left
      constructor
      · by_contra hlen
        obtain ⟨bs, hbs⟩ := spec_blocks_of_enough m.tables m.input count src (by omega)
        rw [hbs] at h
        simp at h
      · obtain ⟨k, bs, hk, hbs, hb⟩ := spec_blocks_eq_none _ _ _ _ h
        exact ⟨k, bs, hk, hbs, (spec_block_eq_none_iff _ _ _).mp hb⟩
    · right
      exact h.2
  · intro h hh hlen hne
    apply (decode_eq_none_iff m dst src 1).mpr
    left
    have hb : spec_block m.tables m.input src = none := by
      apply (spec_block_eq_none_iff _ _ _).mpr
      right
      refine ⟨h, hh, ?_⟩
      unfold spec_classify
      rw [if_neg hne]
      split <;> simp [spec_record_length] <;> omega
    unfold spec_blocks
    simp [hb]

/-- C8 on the documented tables: nine bytes and six words are enough for three
blocks, whatever the bytes. -/
theorem decode_fails_only_on_short_buffers_witness :
    ∃ r, CCC_decode_blocks
      (demo_memory [0xFE, 0xFF, 0x00, 0x77, 0x12, 0x21, 0xAB, 0xCD, 0xEF] [0, 0, 0, 0, 0, 0])
      0 0 3 = some r :=
  (decode_fails_only_on_short_buffers
    (demo_memory [0xFE, 0xFF, 0x00, 0x77, 0x12, 0x21, 0xAB, 0xCD, 0xEF] [0, 0, 0, 0, 0, 0])
    0 0 3).1 (by decide) (by decide)

/-- C9: a call that completes leaves the tables and the input as they were,
keeps the length of the output, changes no output word outside the offsets
`dst .. dst + 2 * count - 1`, and every store it performs is at an offset in
that window. -/
theorem decode_frame (m : Memory) (dst src count : Nat) (src' : Nat) (m' : Memory)
    (h : CCC_decode_blocks m dst src count = some (src', m')) :
    m'.tables = m.tables ∧ m'.input = m.input ∧
    m'.output.length = m.output.length ∧
    (∀ i, i < dst ∨ dst + 2 * count ≤ i → m'.output[i]? = m.output[i]?) ∧
    ∃ L, m'.written = m.written ++ L ∧
      ∀ e, e ∈ L → dst ≤ e.1 ∧ e.1 < dst + 2 * count := by
  obtain ⟨bs, hbs, hcap⟩ := decode_some_spec count m dst src _ h
  have hrun := decode_of_spec count m dst src bs hbs hcap
  rw [h, Option.some.injEq, Prod.mk.injEq] at hrun
  obtain ⟨_, hm'⟩ := hrun
  have hlen : bs.length = count := spec_blocks_length _ _ _ _ _ hbs
  have hwl : (spec_words bs).length = 2 * count := by rw [spec_words_length, hlen]
  subst hm'
  rcases hcap with h0 | hcap
  · subst h0
    have hnil : bs = [] := List.length_eq_zero.mp hlen
    subst hnil
    rw [show spec_words ([] : List SpecBlock) = [] from rfl, after_run_nil]
    exact ⟨rfl, rfl, rfl, fun _ _ => rfl, [], by simp, by simp⟩
  · refine ⟨rfl, rfl, after_run_output_length m dst _ (by omega), ?_,
      (List.range' dst (spec_words bs).length).zip (spec_words bs), rfl, ?_⟩
    · intro i hi
      exact after_run_output_frame m dst _ (by omega) i (by omega)
    · intro e he
      have hmem := (List.of_mem_zip (a := e.1) (b := e.2) he).1
      rw [List.mem_range'_1] at hmem
      omega

/-- C9 on three blocks decoded into the middle of a nine-word buffer. -/
theorem decode_frame_witness :
    ∃ src' m',
      CCC_decode_blocks
        (demo_memory [0x00, 0x12, 0x03, 0x21, 0x01, 0x80] [7, 7, 7, 7, 7, 7, 7, 7, 7])
        2 0 3 = some (src', m') ∧
      m'.tables = demo_tables ∧ m'.input = [0x00, 0x12, 0x03, 0x21, 0x01, 0x80] ∧
      m'.output.length = 9 ∧
      (∀ i, i < 2 ∨ 2 + 2 * 3 ≤ i →
        m'.output[i]? = [7, 7, 7, 7, 7, 7, 7, 7, 7][i]?) :=
  ⟨6, _, rfl,
    (decode_frame
      (demo_memory [0x00, 0x12, 0x03, 0x21, 0x01, 0x80] [7, 7, 7, 7, 7, 7, 7, 7, 7])
      2 0 3 6 _ rfl).1,
    (decode_frame
      (demo_memory [0x00, 0x12, 0x03, 0x21, 0x01, 0x80] [7, 7, 7, 7, 7, 7, 7, 7, 7])
      2 0 3 6 _ rfl).2.1,
    (decode_frame
      (demo_memory [0x00, 0x12, 0x03, 0x21, 0x01, 0x80] [7, 7, 7, 7, 7, 7, 7, 7, 7])
      2 0 3 6 _ rfl).2.2.1,
    (decode_frame
      (demo_memory [0x00, 0x12, 0x03, 0x21, 0x01, 0x80] [7, 7, 7, 7, 7, 7, 7, 7, 7])
      2 0 3 6 _ rfl).2.2.2.1⟩

/-- C10: record lengths are decided by the header bytes' `color_lut` lookups
alone. Take two completed runs of `count` blocks from the same cursor, over the
same `color_lut`, whose inputs hold the same byte at each block start of the
first run; the codebooks, the full-block masks, every other input byte and the
output side may all differ. Then both runs return the same cursor, and every
block starts at the same position in both. -/
theorem record_lengths_depend_on_headers_only (m1 m2 : Memory)
    (dst1 dst2 src count : Nat) (r1 r2 : Nat × Memory)
    (hlut : m1.tables.color_lut = m2.tables.color_lut)
    (h1 : CCC_decode_blocks m1 dst1 src count = some r1)
    (h2 : CCC_decode_blocks m2 dst2 src count = some r2)
    (hhdr : ∀ k, k < count → ∀ s ∈ block_start m1 dst1 src k,
      m1.input[s]? = m2.input[s]?) :
    r1.1 = r2.1 ∧
    ∀ k, k ≤ count → ∃ s, block_start m1 dst1 src k = some s ∧
      block_start m2 dst2 src k = some s := by
  obtain ⟨bs1, hbs1, hcap1⟩ := decode_some_spec count m1 dst1 src r1 h1
  obtain ⟨bs2, hbs2, hcap2⟩ := decode_some_spec count m2 dst2 src r2 h2
  have hkinds : bs1.map SpecBlock.kind = bs2.map SpecBlock.kind := by
    apply spec_kinds_agree m1.tables m2.tables m1.input m2.input hlut count src bs1 bs2
      hbs1 hbs2
    intro k hk
    exact hhdr k hk _ (block_start_of_spec m1 dst1 src count bs1 hbs1 hcap1 k (by omega))
  have hstart : ∀ k, k ≤ count → ∃ s, block_start m1 dst1 src k = some s ∧
      block_start m2 dst2 src k = some s := by
    intro k hk
    refine ⟨src + spec_bytes (bs1.take k),
      block_start_of_spec m1 dst1 src count bs1 hbs1 hcap1 k hk, ?_⟩
    rw [block_start_of_spec m2 dst2 src count bs2 hbs2 hcap2 k hk]
    have : (bs1.take k).map SpecBlock.kind = (bs2.take k).map SpecBlock.kind := by
      rw [List.map_take, List.map_take, hkinds]
    rw [spec_bytes_of_kinds _ _ this]
  refine ⟨?_, hstart⟩
  obtain ⟨s, hs1, hs2⟩ := hstart count (Nat.le_refl count)
  simp only [block_start, h1, h2, Option.map_some', Option.some.injEq] at hs1 hs2
  rw [hs1, hs2]

/-- C10 on two runs of three blocks that share `color_lut` and the header
bytes `0x00`, `0x12`, `0x21` but differ in codebook, in full-block masks and in
the pattern and mask bytes: both return cursor 6. -/
theorem record_lengths_depend_on_headers_only_witness :
    (CCC_decode_blocks (demo_memory [0x00, 0x12, 0x03, 0x21, 0x01, 0x80] [7, 7, 7, 7, 7, 7])
        0 0 3).map Prod.fst
      = (CCC_decode_blocks
          ⟨⟨doc_color_lut, fun _ => 0xF0F0F0F0, fun _ => ⟨0, 0xFFFFFFFF⟩⟩,
            [0x00, 0x12, 0xFF, 0x21, 0xAA, 0x55], [0, 0, 0, 0, 0, 0, 0, 0], []⟩
          2 0 3).map Prod.fst :=
  congrArg some
    (record_lengths_depend_on_headers_only
      (demo_memory [0x00, 0x12, 0x03, 0x21, 0x01, 0x80] [7, 7, 7, 7, 7, 7])
      ⟨⟨doc_color_lut, fun _ => 0xF0F0F0F0, fun _ => ⟨0, 0xFFFFFFFF⟩⟩,
        [0x00, 0x12, 0xFF, 0x21, 0xAA, 0x55], [0, 0, 0, 0, 0, 0, 0, 0], []⟩
      0 2 0 3 _ _ rfl rfl rfl (by decide)).1

/-- C11: for every tables and every header byte `h`, with `lo0`, `lo1` the low
16 bits of the two colours of `color_lut[h]`, exactly one of `lo0 = lo1`,
`lo0 < lo1`, `lo0 > lo1` holds, and with room for a whole record and two
words the loop body does what that case's branch does: solid (advance 1,
`color0` twice), codebook (advance 2, the two codebook sums) or full
(advance 3, the two mask sums). No header byte makes it fail. -/
theorem header_classification_complete (m : Memory) (dst src : Nat) (h : Fin 256)
    (hh : m.input[src]? = some h) :
    (((m.tables.color_lut h).color0 % 2 ^ 16 = (m.tables.color_lut h).color1 % 2 ^ 16 ∧
        ¬ (m.tables.color_lut h).color0 % 2 ^ 16 < (m.tables.color_lut h).color1 % 2 ^ 16 ∧
        ¬ (m.tables.color_lut h).color0 % 2 ^ 16 > (m.tables.color_lut h).color1 % 2 ^ 16) ∨
      (¬ (m.tables.color_lut h).color0 % 2 ^ 16 = (m.tables.color_lut h).color1 % 2 ^ 16 ∧
        (m.tables.color_lut h).color0 % 2 ^ 16 < (m.tables.color_lut h).color1 % 2 ^ 16 ∧
        ¬ (m.tables.color_lut h).color0 % 2 ^ 16 > (m.tables.color_lut h).color1 % 2 ^ 16) ∨
      (¬ (m.tables.color_lut h).color0 % 2 ^ 16 = (m.tables.color_lut h).color1 % 2 ^ 16 ∧
        ¬ (m.tables.color_lut h).color0 % 2 ^ 16 < (m.tables.color_lut h).color1 % 2 ^ 16 ∧
        (m.tables.color_lut h).color0 % 2 ^ 16 > (m.tables.color_lut h).color1 % 2 ^ 16)) ∧
    (src + 3 ≤ m.input.length → dst + 2 ≤ m.output.length →
      ((m.tables.color_lut h).color0 % 2 ^ 16 = (m.tables.color_lut h).color1 % 2 ^ 16 →
        decode_block m dst src = some (dst + 2, src + 1,
          after_block m dst (m.tables.color_lut h).color0 (m.tables.color_lut h).color0)) ∧
      ((m.tables.color_lut h).color0 % 2 ^ 16 < (m.tables.color_lut h).color1 % 2 ^ 16 →
        ∃ p, m.input[src + 1]? = some p ∧
          decode_block m dst src = some (dst + 2, src + 2,
            after_block m dst
              (((m.tables.color_lut h).color1
                + ((m.tables.color_lut h).color0 &&& (m.tables.codebook p).top)) % 2 ^ 32)
              (((m.tables.color_lut h).color1
                + ((m.tables.color_lut h).color0 &&& (m.tables.codebook p).bottom)) % 2 ^ 32))) ∧
      ((m.tables.color_lut h).color0 % 2 ^ 16 > (m.tables.color_lut h).color1 % 2 ^ 16 →
        ∃ b1 b2, m.input[src + 1]? = some b1 ∧ m.input[src + 2]? = some b2 ∧
          decode_block m dst src = some (dst + 2, src + 3,
            after_block m dst
              (((m.tables.color_lut h).color0
                + ((m.tables.color_lut h).color1 &&& m.tables.full_block_masks b1)) % 2 ^ 32)
              (((m.tables.color_lut h).color0
                + ((m.tables.color_lut h).color1 &&& m.tables.full_block_masks b2)) % 2 ^ 32)))) := by
  refine ⟨by omega, ?_⟩
  intro hin hout
  have hx1 : src + 1 < m.input.length := by omega
  have hx2 : src + 2 < m.input.length := by omega
  have e1 : m.input[src + 1]? = some m.input[src + 1] := List.getElem?_eq_getElem hx1
  have e2 : m.input[src + 2]? = some m.input[src + 2] := List.getElem?_eq_getElem hx2
  refine ⟨?_, ?_, ?_⟩
  · intro hs
    have hb : spec_block m.tables m.input src
        = some ⟨BlockKind.solid, (m.tables.color_lut h).color0,
            (m.tables.color_lut h).color0⟩ := by
      unfold spec_block spec_classify
      simp only [hh]
      rw [if_pos hs]
    exact decode_block_of_spec m dst src _ hb hout
  · intro hlt
    refine ⟨m.input[src + 1], e1, ?_⟩
    have hb : spec_block m.tables m.input src
        = some ⟨BlockKind.codebook,
            ((m.tables.color_lut h).color1
              + ((m.tables.color_lut h).color0
                &&& (m.tables.codebook m.input[src + 1]).top)) % 2 ^ 32,
            ((m.tables.color_lut h).color1
              + ((m.tables.color_lut h).color0
                &&& (m.tables.codebook m.input[src + 1]).bottom)) % 2 ^ 32⟩ := by
      unfold spec_block spec_classify
      simp only [hh]
      rw [if_neg (by omega), if_pos hlt]
      simp only [e1]
    exact decode_block_of_spec m dst src _ hb hout
  · intro hgt
    refine ⟨m.input[src + 1], m.input[src + 2], e1, e2, ?_⟩
    have hb : spec_block m.tables m.input src
        = some ⟨BlockKind.full,
            ((m.tables.color_lut h).color0
              + ((m.tables.color_lut h).color1
                &&& m.tables.full_block_masks m.input[src + 1])) % 2 ^ 32,
            ((m.tables.color_lut h).color0
              + ((m.tables.color_lut h).color1
                &&& m.tables.full_block_masks m.input[src + 2])) % 2 ^ 32⟩ := by
      unfold spec_block spec_classify
      simp only [hh]
      rw [if_neg (by omega), if_neg (by omega)]
      simp only [e1, e2]
    exact decode_block_of_spec m dst src _ hb hout

/-- C11 on the documented `color_lut`: header `0x21` has `lo0 > lo1`, and the
loop body takes the full branch on `[0x21, 0x01, 0x80]`. -/
theorem header_classification_complete_witness :
    (doc_color_lut 0x21).color0 % 2 ^ 16 > (doc_color_lut 0x21).color1 % 2 ^ 16 ∧
    ∃ b1 b2, (demo_memory [0x21, 0x01, 0x80] [7, 7]).input[0 + 1]? = some b1 ∧
      (demo_memory [0x21, 0x01, 0x80] [7, 7]).input[0 + 2]? = some b2 ∧
      decode_block (demo_memory [0x21, 0x01, 0x80] [7, 7]) 0 0 = some (0 + 2, 0 + 3,
        after_block (demo_memory [0x21, 0x01, 0x80] [7, 7]) 0
          ((0x22222222 + (0x11111111 &&& demo_tables.full_block_masks b1)) % 2 ^ 32)
          ((0x22222222 + (0x11111111 &&& demo_tables.full_block_masks b2)) % 2 ^ 32)) :=
  ⟨by decide,
    ((header_classification_complete (demo_memory [0x21, 0x01, 0x80] [7, 7]) 0 0 0x21
      (by decide)).2 (by decide) (by decide)).2.2 (by decide)⟩

/-- C12: decoding is deterministic. A run is a function of the tables, the
input bytes, the cursor and `count` alone: whenever one run completes, any
other run over the same tables, input, cursor and `count` (with room for its
`2 * count` words, at whatever offset and over whatever prior output contents)
completes too, returns the same cursor, and stores the same words in the same
order. -/
theorem decode_deterministic (m1 m2 : Memory) (dst1 dst2 src count : Nat)
    (src' : Nat) (m1' : Memory)
    (htab : m1.tables = m2.tables) (hinp : m1.input = m2.input)
    (h1 : CCC_decode_blocks m1 dst1 src count = some (src', m1'))
    (hcap : dst2 + 2 * count ≤ m2.output.length) :
    ∃ m2', CCC_decode_blocks m2 dst2 src count = some (src', m2') ∧
      (∀ i, i < 2 * count → m2'.output[dst2 + i]? = m1'.output[dst1 + i]?) ∧
      (m2'.written.drop m2.written.length).map Prod.snd
        = (m1'.written.drop m1.written.length).map Prod.snd := by
  obtain ⟨bs, hbs, hcap1⟩ := decode_some_spec count m1 dst1 src _ h1
  have hrun1 := decode_of_spec count m1 dst1 src bs hbs hcap1
  rw [h1, Option.some.injEq, Prod.mk.injEq] at hrun1
  obtain ⟨hsrc, hm1'⟩ := hrun1
  have hbs2 : spec_blocks m2.tables m2.input src count = some bs := by
    rw [← htab, ← hinp]
    exact hbs
  have hlen : bs.length = count := spec_blocks_length _ _ _ _ _ hbs
  have hwl : (spec_words bs).length = 2 * count := by rw [spec_words_length, hlen]
  refine ⟨after_run m2 dst2 (spec_words bs), ?_, ?_, ?_⟩
  · rw [hsrc]
    exact decode_of_spec count m2 dst2 src bs hbs2 (Or.inr hcap)
  · intro i hi
    have hc1 : dst1 + 2 * count ≤ m1.output.length := by omega
    rw [hm1', after_run_output_window m2 dst2 _ (by omega) i (by omega),
      after_run_output_window m1 dst1 _ (by omega) i (by omega)]
  · rw [hm1']
    simp only [after_run, List.drop_left]
    rw [List.map_snd_zip _ _ (by simp), List.map_snd_zip _ _ (by simp)]

/-- C12 on the same three records decoded over two different prior outputs, at
two different offsets. -/
theorem decode_deterministic_witness :
    ∃ m2', CCC_decode_blocks
        (demo_memory [0x00, 0x12, 0x03, 0x21, 0x01, 0x80] [1, 2, 3, 4, 5, 6, 7, 8]) 2 0 3
        = some (6, m2') ∧
      (∀ i, i < 2 * 3 → m2'.output[2 + i]?
        = [0, 0, 0x22222233, 0x33333322, 0x22222223, 0x32222222][0 + i]?) :=
  (decode_deterministic
    (demo_memory [0x00, 0x12, 0x03, 0x21, 0x01, 0x80] [9, 9, 9, 9, 9, 9])
    (demo_memory [0x00, 0x12, 0x03, 0x21, 0x01, 0x80] [1, 2, 3, 4, 5, 6, 7, 8])
    0 2 0 3 6 _ rfl rfl rfl (by decide)).imp fun _ h => ⟨h.1, h.2.1⟩

/-- C14: the loop carries no state from block to block. Decoding `a + b`
blocks is decoding `a` blocks and then `b` blocks from the cursor the first
call returned, with the second call's words going to `dst + 2 * a`: same
returned cursor, same memory, same failures (for every `a`, `b`, so for
`a + b ≤ 65535`). And in a completed run the two words of block `k` depend only
on the tables and on the bytes of block `k`'s own record, from its start `s` to
the next block's start `s'`: they are what decoding block `k` alone stores, and
what decoding one block stores on any memory with the same tables that holds
those `s' - s` bytes at its cursor, whatever the rest of its input, its output
and its cursors. -/
theorem decode_composes (m : Memory) (dst src a b : Nat) :
    CCC_decode_blocks m dst src (a + b)
      = (CCC_decode_blocks m dst src a).bind
          (fun r => CCC_decode_blocks r.2 (dst + 2 * a) r.1 b) ∧
    (∀ src' m', CCC_decode_blocks m dst src (a + b) = some (src', m') →
      ∀ k, k < a + b → ∃ s s' top bottom,
        block_start m dst src k = some s ∧
        CCC_decode_blocks m (dst + 2 * k) s 1
          = some (s', after_block m (dst + 2 * k) top bottom) ∧
        m'.output[dst + 2 * k]? = some top ∧
        m'.output[dst + 2 * k + 1]? = some bottom ∧
        block_start m dst src (k + 1) = some s' ∧
        s < s' ∧ s' ≤ s + 3 ∧
        ∀ (m2 : Memory) (dst2 s2 : Nat), m2.tables = m.tables →
          (∀ j, j < s' - s → m2.input[s2 + j]? = m.input[s + j]?) →
          dst2 + 2 ≤ m2.output.length →
          CCC_decode_blocks m2 dst2 s2 1
            = some (s2 + (s' - s), after_block m2 dst2 top bottom)) := by
  refine ⟨decode_add a m dst src b, ?_⟩
  intro src' m' hrun k hk
  obtain ⟨bs, hbs, hcap⟩ := decode_some_spec (a + b) m dst src _ hrun
  have hrun' := decode_of_spec (a + b) m dst src bs hbs hcap
  rw [hrun, Option.some.injEq, Prod.mk.injEq] at hrun'
  obtain ⟨_, hm'⟩ := hrun'
  have hlen : bs.length = a + b := spec_blocks_length _ _ _ _ _ hbs
  have hwl : (spec_words bs).length = 2 * (a + b) := by rw [spec_words_length, hlen]
  have hroom : dst + 2 * (a + b) ≤ m.output.length := by omega
  obtain ⟨blk, hk1, hk2⟩ := spec_blocks_getElem _ _ _ _ _ k hbs hk
  obtain ⟨ht, hb⟩ := spec_words_getElem bs k blk hk1
  have hl3 := spec_record_length_le blk.kind
  have hl1 : 1 ≤ spec_record_length blk.kind := by
    cases blk.kind <;> simp [spec_record_length]
  have hsub : src + spec_bytes (bs.take k) + spec_record_length blk.kind
      - (src + spec_bytes (bs.take k)) = spec_record_length blk.kind := by omega
  refine ⟨src + spec_bytes (bs.take k),
    src + spec_bytes (bs.take k) + spec_record_length blk.kind, blk.top, blk.bottom,
    block_start_of_spec m dst src (a + b) bs hbs hcap k (by omega),
    decode_one_of_spec m (dst + 2 * k) _ blk hk2 (by omega), ?_, ?_, ?_, by omega,
    by omega, ?_⟩
  · rw [hm', after_run_output_window m dst _ (by omega) _ (by omega), ht]
  · rw [hm', Nat.add_assoc, after_run_output_window m dst _ (by omega) _ (by omega), hb]
  · rw [block_start_of_spec m dst src (a + b) bs hbs hcap (k + 1) (by omega),
      spec_bytes_take_succ bs k blk hk1, Nat.add_assoc]
  · intro m2 dst2 s2 htab hag hout2
    rw [hsub] at hag ⊢
    have hb2 : spec_block m2.tables m2.input s2 = some blk := by
      rw [htab]
      exact spec_block_congr m.tables m.input m2.input _ s2 blk hk2 hag
    exact decode_one_of_spec m2 dst2 s2 blk hb2 hout2

/-- C14 on three records over the documented tables: block 1 of the run, the
codebook record `[0x12, 0x03]` at cursor 1, stores `0x22222233` and
`0x33333322`, and so does one block decoded at cursor 2 of another input that
holds the same two bytes there among different ones, into another output. -/
theorem decode_composes_witness :
    CCC_decode_blocks (demo_memory [0x00, 0x12, 0x03, 0x21, 0x01, 0x80] [7, 7, 7, 7, 7, 7])
        0 0 3
      = some (6, ⟨demo_tables, [0x00, 0x12, 0x03, 0x21, 0x01, 0x80],
          [0, 0, 0x22222233, 0x33333322, 0x22222223, 0x32222222],
          [(0, 0), (1, 0), (2, 0x22222233), (3, 0x33333322), (4, 0x22222223),
            (5, 0x32222222)]⟩) ∧
    CCC_decode_blocks (demo_memory [0xFF, 0xEE, 0x12, 0x03, 0x55] [1, 2, 3]) 1 2 1
      = some (4, after_block (demo_memory [0xFF, 0xEE, 0x12, 0x03, 0x55] [1, 2, 3]) 1
          0x22222233 0x33333322) := by
  refine ⟨rfl, ?_⟩
  obtain ⟨s, s', top, bottom, hs, _, ho0, ho1, hs', _, _, hother⟩ :=
    (decode_composes (demo_memory [0x00, 0x12, 0x03, 0x21, 0x01, 0x80] [7, 7, 7, 7, 7, 7])
      0 0 1 2).2 6 _ rfl 1 (by decide)
  have e1 : s = 1 := (Option.some.inj hs).symm
  have e2 : s' = 3 := (Option.some.inj hs').symm
  have e3 : top = 0x22222233 := (Option.some.inj ho0).symm
  have e4 : bottom = 0x33333322 := (Option.some.inj ho1).symm
  subst e1 e2 e3 e4
  exact hother (demo_memory [0xFF, 0xEE, 0x12, 0x03, 0x55] [1, 2, 3]) 1 2 rfl
    (by decide) (by decide)

/-- C15: for every tables and every codebook-classified header `h` (whose
`color1`, a `uint32_t`, is below `2 ^ 32`), decoding the record `[h, p]`
completes, and a zero top mask in `codebook[p]` makes the top word equal to
`color1`, a zero bottom mask makes the bottom word equal to `color1`; with
`p = 0x00` this is the scenario of `codebook[0].top = 0`. -/
theorem zero_mask_gives_color1 (m : Memory) (dst src : Nat) (h p : Fin 256)
    (hh : m.input[src]? = some h) (hp : m.input[src + 1]? = some p)
    (hlt : (m.tables.color_lut h).color0 % 2 ^ 16 < (m.tables.color_lut h).color1 % 2 ^ 16)
    (hu32 : (m.tables.color_lut h).color1 < 2 ^ 32)
    (hout : dst + 2 ≤ m.output.length) :
    ∃ m', CCC_decode_blocks m dst src 1 = some (src + 2, m') ∧
      ((m.tables.codebook p).top = 0x00000000 →
        m'.output[dst]? = some (m.tables.color_lut h).color1) ∧
      ((m.tables.codebook p).bottom = 0x00000000 →
        m'.output[dst + 1]? = some (m.tables.color_lut h).color1) := by
  have hb : spec_block m.tables m.input src
      = some ⟨BlockKind.codebook,
          ((m.tables.color_lut h).color1
            + ((m.tables.color_lut h).color0 &&& (m.tables.codebook p).top)) % 2 ^ 32,
          ((m.tables.color_lut h).color1
            + ((m.tables.color_lut h).color0 &&& (m.tables.codebook p).bottom)) % 2 ^ 32⟩ := by
    unfold spec_block spec_classify
    simp only [hh]
    rw [if_neg (by omega), if_pos hlt]
    simp only [hp]
  have h0 : dst < m.output.length := by omega
  have h1 : dst + 1 < m.output.length := by omega
  refine ⟨_, decode_one_of_spec m dst src _ hb hout, ?_, ?_⟩
  · intro hz
    simp only [after_block, hz, Nat.and_zero, Nat.add_zero, Nat.mod_eq_of_lt hu32]
    rw [List.getElem?_set_ne (by omega), List.getElem?_set_self h0]
  · intro hz
    simp only [after_block, hz, Nat.and_zero, Nat.add_zero, Nat.mod_eq_of_lt hu32]
    rw [List.getElem?_set_self (by simpa using h1)]

/-- C15 on the documented tables: header `0x12` with pattern `0x00`, whose top
mask in the stand-in codebook is zero, gives the top word `color1`. -/
theorem zero_mask_gives_color1_witness :
    (demo_tables.codebook 0x00).top = 0x00000000 ∧
    ∃ m', CCC_decode_blocks (demo_memory [0x12, 0x00] [7, 7]) 0 0 1 = some (2, m') ∧
      m'.output[0]? = some 0x22222222 :=
  ⟨by decide,
    (zero_mask_gives_color1 (demo_memory [0x12, 0x00] [7, 7]) 0 0 0x12 0x00
      (by decide) (by decide) (by decide) (by decide) (by decide)).imp
      fun _ h => ⟨h.1, h.2.1 (by decide)⟩⟩

/-- C13, the decoder at a failing input: on the documented `color_lut` the
additive composition does not select between the block's two colours. Header
`0x12` is codebook-classified and the top mask `0x0000000F` of the stand-in
`codebook[0x01]` has only `0x0`/`0xF` lanes, with lane 0 equal to `0xF`;
`color0 AND mask` sets a bit in lane 0, where `color1` is not zero, and lane 0
of the stored top word `0x22222223` is 3, the sum of the two nibbles, where a
select gives `color0`'s nibble 1. With header `0x79` the sum carries into the
next lane: the stored top word is `0x999999A0`, whose lanes take three distinct
values. -/
theorem per_lane_select_fails :
    (doc_color_lut 0x12).color0 % 2 ^ 16 < (doc_color_lut 0x12).color1 % 2 ^ 16 ∧
    (∀ i, i < 8 → nibble_lane (demo_tables.codebook 0x01).top i = 0x0 ∨
      nibble_lane (demo_tables.codebook 0x01).top i = 0xF) ∧
    nibble_lane (demo_tables.codebook 0x01).top 0 = 0xF ∧
    nibble_lane ((doc_color_lut 0x12).color0 &&& (demo_tables.codebook 0x01).top) 0 ≠ 0 ∧
    nibble_lane (doc_color_lut 0x12).color1 0 ≠ 0 ∧
    CCC_decode_blocks (demo_memory [0x12, 0x01] [0, 0]) 0 0 1
      = some (2, ⟨demo_tables, [0x12, 0x01], [0x22222223, 0x33333332],
          [(0, 0x22222223), (1, 0x33333332)]⟩) ∧
    nibble_lane 0x22222223 0 ≠ nibble_lane (doc_color_lut 0x12).color0 0 ∧
    (doc_color_lut 0x79).color0 % 2 ^ 16 < (doc_color_lut 0x79).color1 % 2 ^ 16 ∧
    (CCC_decode_blocks (demo_memory [0x79, 0x01] [0, 0]) 0 0 1).map
        (fun r => r.2.output[0]?) = some (some 0x999999A0) ∧
    nibble_lane 0x999999A0 0 ≠ nibble_lane 0x999999A0 1 ∧
    nibble_lane 0x999999A0 0 ≠ nibble_lane 0x999999A0 2 ∧
    nibble_lane 0x999999A0 1 ≠ nibble_lane 0x999999A0 2 :=
  ⟨by decide, by decide, by decide, by decide, by decide, rfl, by decide, by decide, rfl,
    by decide, by decide, by decide⟩

/-- C16: the additions that compose the non-solid words are 32-bit modular.
A codebook record stores `(color1 + (color0 AND mask)) mod 2^32` and a full
record `(color0 + (color1 AND mask)) mod 2^32`, each below `2 ^ 32`; every word
a completed run stores is below `2 ^ 32` when the `color0` entries (`uint32_t`
in the source) are; and the reduction is observable on the documented tables:
header `0xFE` with mask byte `0xFF` has the unreduced sum
`0xFFFFFFFF + 0xEEEEEEEE`, at least `2 ^ 32`, and stores `0xEEEEEEED`. -/
theorem additions_are_modular :
    (∀ (m : Memory) (dst src : Nat) (h p : Fin 256),
      m.input[src]? = some h → m.input[src + 1]? = some p →
      (m.tables.color_lut h).color0 % 2 ^ 16 < (m.tables.color_lut h).color1 % 2 ^ 16 →
      dst + 2 ≤ m.output.length →
      ∃ m' top bottom, CCC_decode_blocks m dst src 1 = some (src + 2, m') ∧
        m'.output[dst]? = some top ∧ m'.output[dst + 1]? = some bottom ∧
        top = ((m.tables.color_lut h).color1
          + ((m.tables.color_lut h).color0 &&& (m.tables.codebook p).top)) % 2 ^ 32 ∧
        bottom = ((m.tables.color_lut h).color1
          + ((m.tables.color_lut h).color0 &&& (m.tables.codebook p).bottom)) % 2 ^ 32 ∧
        top < 2 ^ 32 ∧ bottom < 2 ^ 32) ∧
    (∀ (m : Memory) (dst src : Nat) (h b1 b2 : Fin 256),
      m.input[src]? = some h → m.input[src + 1]? = some b1 →
      m.input[src + 2]? = some b2 →
      (m.tables.color_lut h).color0 % 2 ^ 16 > (m.tables.color_lut h).color1 % 2 ^ 16 →
      dst + 2 ≤ m.output.length →
      ∃ m' top bottom, CCC_decode_blocks m dst src 1 = some (src + 3, m') ∧
        m'.output[dst]? = some top ∧ m'.output[dst + 1]? = some bottom ∧
        top = ((m.tables.color_lut h).color0
          + ((m.tables.color_lut h).color1 &&& m.tables.full_block_masks b1)) % 2 ^ 32 ∧
        bottom = ((m.tables.color_lut h).color0
          + ((m.tables.color_lut h).color1 &&& m.tables.full_block_masks b2)) % 2 ^ 32 ∧
        top < 2 ^ 32 ∧ bottom < 2 ^ 32) ∧
    (∀ (m : Memory) (dst src count src' : Nat) (m' : Memory),
      (∀ h, (m.tables.color_lut h).color0 < 2 ^ 32) →
      CCC_decode_blocks m dst src count = some (src', m') →
      ∀ e ∈ m'.written.drop m.written.length, e.2 < 2 ^ 32) ∧
    (2 ^ 32 ≤ (doc_color_lut 0xFE).color0
        + ((doc_color_lut 0xFE).color1 &&& doc_full_block_masks 0xFF) ∧
      (doc_color_lut 0xFE).color0 = 0xFFFFFFFF ∧
      (doc_color_lut 0xFE).color1 &&& doc_full_block_masks 0xFF = 0xEEEEEEEE ∧
      CCC_decode_blocks (demo_memory [0xFE, 0xFF, 0xFF] [0, 0]) 0 0 1
        = some (3, ⟨demo_tables, [0xFE, 0xFF, 0xFF], [0xEEEEEEED, 0xEEEEEEED],
            [(0, 0xEEEEEEED), (1, 0xEEEEEEED)]⟩)) := by
  refine ⟨?_, ?_, ?_, ⟨by decide, by decide, by decide, rfl⟩⟩
  · intro m dst src h p hh hp hlt hout
    have hb : spec_block m.tables m.input src
        = some ⟨BlockKind.codebook,
            ((m.tables.color_lut h).color1
              + ((m.tables.color_lut h).color0 &&& (m.tables.codebook p).top)) % 2 ^ 32,
            ((m.tables.color_lut h).color1
              + ((m.tables.color_lut h).color0 &&& (m.tables.codebook p).bottom)) % 2 ^ 32⟩ := by
      unfold spec_block spec_classify
      simp only [hh]
      rw [if_neg (by omega), if_pos hlt]
      simp only [hp]
    obtain ⟨ho0, ho1⟩ := after_block_output m dst
      (((m.tables.color_lut h).color1
        + ((m.tables.color_lut h).color0 &&& (m.tables.codebook p).top)) % 2 ^ 32)
      (((m.tables.color_lut h).color1
        + ((m.tables.color_lut h).color0 &&& (m.tables.codebook p).bottom)) % 2 ^ 32) hout
    exact ⟨_, _, _, decode_one_of_spec m dst src _ hb hout, ho0, ho1, rfl, rfl,
      Nat.mod_lt _ (by norm_num), Nat.mod_lt _ (by norm_num)⟩
  · intro m dst src h b1 b2 hh h1 h2 hgt hout
    have hb : spec_block m.tables m.input src
        = some ⟨BlockKind.full,
            ((m.tables.color_lut h).color0
              + ((m.tables.color_lut h).color1 &&& m.tables.full_block_masks b1)) % 2 ^ 32,
            ((m.tables.color_lut h).color0
              + ((m.tables.color_lut h).color1 &&& m.tables.full_block_masks b2)) % 2 ^ 32⟩ := by
      unfold spec_block spec_classify
      simp only [hh]
      rw [if_neg (by omega), if_neg (by omega)]
      simp only [h1, h2]
    obtain ⟨ho0, ho1⟩ := after_block_output m dst
      (((m.tables.color_lut h).color0
        + ((m.tables.color_lut h).color1 &&& m.tables.full_block_masks b1)) % 2 ^ 32)
      (((m.tables.color_lut h).color0
        + ((m.tables.color_lut h).color1 &&& m.tables.full_block_masks b2)) % 2 ^ 32) hout
    exact ⟨_, _, _, decode_one_of_spec m dst src _ hb hout, ho0, ho1, rfl, rfl,
      Nat.mod_lt _ (by norm_num), Nat.mod_lt _ (by norm_num)⟩
  · intro m dst src count src' m' hu32 hrun e he
    obtain ⟨bs, hbs, hcap⟩ := decode_some_spec count m dst src _ hrun
    have hrun' := decode_of_spec count m dst src bs hbs hcap
    rw [hrun, Option.some.injEq, Prod.mk.injEq] at hrun'
    obtain ⟨_, hm'⟩ := hrun'
    rw [hm'] at he
    simp only [after_run, List.drop_left] at he
    have hmem := (List.of_mem_zip (a := e.1) (b := e.2) he).2
    exact spec_words_lt m.tables m.input hu32 count src bs hbs e.2 hmem

/-- C16 on the documented tables: the full record `[0xFE, 0xFF, 0xFF]` stores
two reduced words. -/
theorem additions_are_modular_witness :
    ∃ m' top bottom,
      CCC_decode_blocks (demo_memory [0xFE, 0xFF, 0xFF] [0, 0]) 0 0 1 = some (0 + 3, m') ∧
      m'.output[0]? = some top ∧ m'.output[0 + 1]? = some bottom ∧
      top = (0xFFFFFFFF + (0xEEEEEEEE &&& demo_tables.full_block_masks 0xFF)) % 2 ^ 32 ∧
      bottom = (0xFFFFFFFF + (0xEEEEEEEE &&& demo_tables.full_block_masks 0xFF)) % 2 ^ 32 ∧
      top < 2 ^ 32 ∧ bottom < 2 ^ 32 :=
  additions_are_modular.2.1 (demo_memory [0xFE, 0xFF, 0xFF] [0, 0]) 0 0 0xFE 0xFF 0xFF
    (by decide) (by decide) (by decide) (by decide) (by decide)

/-- C17: with the documented `color_lut` the decoder's comparison of the low
16 bits depends only on the two nibbles of the header: equal iff `hi = lo`,
less iff `hi < lo`, greater iff `hi > lo`; so 16 header values are solid, 120
codebook and 120 full. Accordingly one block with header `b` advances the
cursor by 1, 2 or 3, and a solid block stores the flat word of its nibble
twice. -/
theorem doc_classification_by_nibbles :
    (∀ b : Fin 256,
      ((doc_color_lut b).color0 % 2 ^ 16 = (doc_color_lut b).color1 % 2 ^ 16
        ↔ b.val / 16 = b.val % 16) ∧
      ((doc_color_lut b).color0 % 2 ^ 16 < (doc_color_lut b).color1 % 2 ^ 16
        ↔ b.val / 16 < b.val % 16) ∧
      ((doc_color_lut b).color0 % 2 ^ 16 > (doc_color_lut b).color1 % 2 ^ 16
        ↔ b.val / 16 > b.val % 16)) ∧
    ((List.finRange 256).filter fun b =>
      decide ((doc_color_lut b).color0 % 2 ^ 16 = (doc_color_lut b).color1 % 2 ^ 16)).length
      = 16 ∧
    ((List.finRange 256).filter fun b =>
      decide ((doc_color_lut b).color0 % 2 ^ 16 < (doc_color_lut b).color1 % 2 ^ 16)).length
      = 120 ∧
    ((List.finRange 256).filter fun b =>
      decide ((doc_color_lut b).color0 % 2 ^ 16 > (doc_color_lut b).color1 % 2 ^ 16)).length
      = 120 ∧
    (∀ (m : Memory) (dst src : Nat) (b : Fin 256),
      m.tables.color_lut = doc_color_lut → m.input[src]? = some b →
      src + 3 ≤ m.input.length → dst + 2 ≤ m.output.length →
      ∃ m', CCC_decode_blocks m dst src 1
          = some (src + (if b.val / 16 = b.val % 16 then 1
              else if b.val / 16 < b.val % 16 then 2 else 3), m') ∧
        (b.val / 16 = b.val % 16 →
          m'.output[dst]? = some ((b.val / 16) * 0x11111111) ∧
          m'.output[dst + 1]? = some ((b.val / 16) * 0x11111111))) := by
  have hcmp : ∀ b : Fin 256,
      ((doc_color_lut b).color0 % 2 ^ 16 = (doc_color_lut b).color1 % 2 ^ 16
        ↔ b.val / 16 = b.val % 16) ∧
      ((doc_color_lut b).color0 % 2 ^ 16 < (doc_color_lut b).color1 % 2 ^ 16
        ↔ b.val / 16 < b.val % 16) ∧
      ((doc_color_lut b).color0 % 2 ^ 16 > (doc_color_lut b).color1 % 2 ^ 16
        ↔ b.val / 16 > b.val % 16) := by
    intro b
    obtain ⟨e0, e1⟩ := doc_color_lut_lo16 b
    rw [e0, e1]
    refine ⟨?_, ?_, ?_⟩ <;> constructor <;> intro h <;> omega
  refine ⟨hcmp, by decide, by decide, by decide, ?_⟩
  intro m dst src b hlut hh hin hout
  obtain ⟨heq, hlt, hgt⟩ := hcmp b
  obtain ⟨bs, hbs⟩ := spec_blocks_of_enough m.tables m.input 1 src (by omega)
  unfold spec_blocks at hbs
  cases hb : spec_block m.tables m.input src with
  | none => simp [hb] at hbs
  | some blk =>
    obtain ⟨h', hh', hkind⟩ := spec_block_kind _ _ _ _ hb
    rw [hh, Option.some.injEq] at hh'
    subst hh'
    rw [hlut] at hkind
    have hrun := decode_one_of_spec m dst src blk hb hout
    obtain ⟨ho0, ho1⟩ := after_block_output m dst blk.top blk.bottom hout
    have hlen : spec_record_length blk.kind
        = if b.val / 16 = b.val % 16 then 1
          else if b.val / 16 < b.val % 16 then 2 else 3 := by
      rw [hkind]
      unfold spec_classify
      by_cases c1 : b.val / 16 = b.val % 16
      · rw [if_pos (heq.mpr c1), if_pos c1]
        rfl
      · by_cases c2 : b.val / 16 < b.val % 16
        · rw [if_neg (fun hc => c1 (heq.mp hc)), if_pos (hlt.mpr c2), if_neg c1, if_pos c2]
          rfl
        · rw [if_neg (fun hc => c1 (heq.mp hc)), if_neg (fun hc => c2 (hlt.mp hc)),
            if_neg c1, if_neg c2]
          rfl
    refine ⟨after_block m dst blk.top blk.bottom, ?_, ?_⟩
    · rw [hrun, hlen]
    · intro hsolid
      have hsb : spec_block m.tables m.input src
          = some ⟨BlockKind.solid, (m.tables.color_lut b).color0,
              (m.tables.color_lut b).color0⟩ := by
        unfold spec_block spec_classify
        simp only [hh]
        rw [hlut, if_pos (heq.mpr hsolid)]
      rw [hb, Option.some.injEq] at hsb
      subst hsb
      have e : (m.tables.color_lut b).color0 = b.val / 16 * 0x11111111 := by
        rw [hlut]
        rfl
      simp only [e] at ho0 ho1 ⊢
      exact ⟨ho0, ho1⟩

/-- C17 on a memory over the documented tables: the solid header `0x44`
advances by 1 and stores `0x44444444` twice. -/
theorem doc_classification_by_nibbles_witness :
    ∃ m', CCC_decode_blocks (demo_memory [0x44, 0x00, 0x00] [7, 7]) 0 0 1 = some (1, m') ∧
      m'.output[0]? = some 0x44444444 ∧ m'.output[1]? = some 0x44444444 :=
  (doc_classification_by_nibbles.2.2.2.2 (demo_memory [0x44, 0x00, 0x00] [7, 7]) 0 0 0x44
    rfl (by decide) (by decide) (by decide)).imp fun _ h => ⟨h.1, h.2 (by decide)⟩

/-- C18: a codebook block is shorthand for a full block with the colours
swapped. With the documented `color_lut`, for every header `h` with
`hi < lo`, every pattern index `p` and mask bytes `m1`, `m2` with
`codebook[p] = (full_block_masks[m1], full_block_masks[m2])`, decoding the
2-byte record `[h, p]` stores the same two words as decoding the 3-byte record
`[h', m1, m2]`, where `h'` is `h` with its nibbles exchanged. -/
theorem codebook_is_full_with_swapped_nibbles (ma mb : Memory)
    (dsta srca dstb srcb : Nat) (h p m1 m2 : Fin 256)
    (hlut : ma.tables.color_lut = doc_color_lut) (htab : mb.tables = ma.tables)
    (hcb : h.val / 16 < h.val % 16)
    (hbook : ma.tables.codebook p
      = ⟨ma.tables.full_block_masks m1, ma.tables.full_block_masks m2⟩)
    (ha0 : ma.input[srca]? = some h) (ha1 : ma.input[srca + 1]? = some p)
    (hb0 : mb.input[srcb]? = some (swap_nibbles h))
    (hb1 : mb.input[srcb + 1]? = some m1) (hb2 : mb.input[srcb + 2]? = some m2)
    (houta : dsta + 2 ≤ ma.output.length) (houtb : dstb + 2 ≤ mb.output.length) :
    ∃ top bottom,
      CCC_decode_blocks ma dsta srca 1
        = some (srca + 2, after_block ma dsta top bottom) ∧
      CCC_decode_blocks mb dstb srcb 1
        = some (srcb + 3, after_block mb dstb top bottom) ∧
      (after_block ma dsta top bottom).output[dsta]? = some top ∧
      (after_block ma dsta top bottom).output[dsta + 1]? = some bottom ∧
      (after_block mb dstb top bottom).output[dstb]? = some top ∧
      (after_block mb dstb top bottom).output[dstb + 1]? = some bottom := by
  have hlt := h.isLt
  obtain ⟨e0, e1⟩ := doc_color_lut_lo16 h
  obtain ⟨s0, s1⟩ := doc_color_lut_lo16 (swap_nibbles h)
  have hsw : doc_color_lut (swap_nibbles h)
      = ⟨(doc_color_lut h).color1, (doc_color_lut h).color0⟩ := by
    simp only [doc_color_lut, swap_nibbles]
    have q1 : (h.val % 16 * 16 + h.val / 16) / 16 = h.val % 16 := by omega
    have q2 : (h.val % 16 * 16 + h.val / 16) % 16 = h.val / 16 := by omega
    rw [q1, q2]
  have hsa : spec_block ma.tables ma.input srca
      = some ⟨BlockKind.codebook,
          ((doc_color_lut h).color1
            + ((doc_color_lut h).color0 &&& ma.tables.full_block_masks m1)) % 2 ^ 32,
          ((doc_color_lut h).color1
            + ((doc_color_lut h).color0 &&& ma.tables.full_block_masks m2)) % 2 ^ 32⟩ := by
    unfold spec_block spec_classify
    simp only [ha0]
    rw [hlut, if_neg (by omega), if_pos (by omega)]
    simp only [ha1, hbook]
  have hsb : spec_block mb.tables mb.input srcb
      = some ⟨BlockKind.full,
          ((doc_color_lut h).color1
            + ((doc_color_lut h).color0 &&& ma.tables.full_block_masks m1)) % 2 ^ 32,
          ((doc_color_lut h).color1
            + ((doc_color_lut h).color0 &&& ma.tables.full_block_masks m2)) % 2 ^ 32⟩ := by
    have q1 : (swap_nibbles h).val / 16 = h.val % 16 := by
      simp only [swap_nibbles]; omega
    have q2 : (swap_nibbles h).val % 16 = h.val / 16 := by
      simp only [swap_nibbles]; omega
    unfold spec_block spec_classify
    simp only [hb0]
    rw [htab, hlut, if_neg (by omega), if_neg (by omega)]
    simp only [hb1, hb2, hsw]
  obtain ⟨oa0, oa1⟩ := after_block_output ma dsta
    (((doc_color_lut h).color1
      + ((doc_color_lut h).color0 &&& ma.tables.full_block_masks m1)) % 2 ^ 32)
    (((doc_color_lut h).color1
      + ((doc_color_lut h).color0 &&& ma.tables.full_block_masks m2)) % 2 ^ 32) houta
  obtain ⟨ob0, ob1⟩ := after_block_output mb dstb
    (((doc_color_lut h).color1
      + ((doc_color_lut h).color0 &&& ma.tables.full_block_masks m1)) % 2 ^ 32)
    (((doc_color_lut h).color1
      + ((doc_color_lut h).color0 &&& ma.tables.full_block_masks m2)) % 2 ^ 32) houtb
  exact ⟨_, _, decode_one_of_spec ma dsta srca _ hsa houta,
    decode_one_of_spec mb dstb srcb _ hsb houtb, oa0, oa1, ob0, ob1⟩

/-- C18 on the documented tables: `[0x12, 0x03]` through the stand-in codebook
(`codebook[0x03]` is the masks of `0x03` and `0xFC`) and `[0x21, 0x03, 0xFC]`
store the same two words. -/
theorem codebook_is_full_with_swapped_nibbles_witness :
    ∃ top bottom,
      CCC_decode_blocks (demo_memory [0x12, 0x03] [7, 7]) 0 0 1
        = some (0 + 2, after_block (demo_memory [0x12, 0x03] [7, 7]) 0 top bottom) ∧
      CCC_decode_blocks (demo_memory [0x21, 0x03, 0xFC] [9, 9, 9]) 1 0 1
        = some (0 + 3, after_block (demo_memory [0x21, 0x03, 0xFC] [9, 9, 9]) 1 top bottom) :=
  (codebook_is_full_with_swapped_nibbles (demo_memory [0x12, 0x03] [7, 7])
    (demo_memory [0x21, 0x03, 0xFC] [9, 9, 9]) 0 0 1 0 0x12 0x03 0x03 0xFC rfl rfl
    (by decide) rfl (by decide) (by decide) (by decide) (by decide) (by decide)
    (by decide) (by decide)).imp fun _ h => h.imp fun _ h2 => ⟨h2.1, h2.2.1⟩

/-- C19: carry-free lane arithmetic on the documented `color_lut` and
`full_block_masks`. For every non-solid header whose nibbles satisfy
`hi + lo ≤ 15`, the unreduced sums are below `2 ^ 32` (no wraparound) and lane
`i` of each stored word is `max hi lo` when bit `i` of its mask byte is clear
and `hi + lo` when it is set, for `i` in 0..7 (so no lane carries into its
neighbour). A full record (`hi > lo`) takes its mask bytes from the input; a
codebook record (`hi < lo`) takes them through `codebook[p]`, looked up through
`full_block_masks`. -/
theorem carry_free_lanes :
    (∀ (m : Memory) (dst src : Nat) (h b1 b2 : Fin 256),
      m.tables.color_lut = doc_color_lut →
      m.tables.full_block_masks = doc_full_block_masks →
      m.input[src]? = some h → m.input[src + 1]? = some b1 →
      m.input[src + 2]? = some b2 →
      h.val / 16 > h.val % 16 → h.val / 16 + h.val % 16 ≤ 15 →
      dst + 2 ≤ m.output.length →
      ∃ m' top bottom, CCC_decode_blocks m dst src 1 = some (src + 3, m') ∧
        m'.output[dst]? = some top ∧ m'.output[dst + 1]? = some bottom ∧
        (doc_color_lut h).color0
          + ((doc_color_lut h).color1 &&& doc_full_block_masks b1) < 2 ^ 32 ∧
        (doc_color_lut h).color0
          + ((doc_color_lut h).color1 &&& doc_full_block_masks b2) < 2 ^ 32 ∧
        ∀ i, i < 8 →
          nibble_lane top i = (if b1.val / 2 ^ i % 2 = 0 then max (h.val / 16) (h.val % 16)
            else h.val / 16 + h.val % 16) ∧
          nibble_lane bottom i
            = (if b2.val / 2 ^ i % 2 = 0 then max (h.val / 16) (h.val % 16)
              else h.val / 16 + h.val % 16)) ∧
    (∀ (m : Memory) (dst src : Nat) (h p b1 b2 : Fin 256),
      m.tables.color_lut = doc_color_lut →
      m.tables.codebook p = ⟨doc_full_block_masks b1, doc_full_block_masks b2⟩ →
      m.input[src]? = some h → m.input[src + 1]? = some p →
      h.val / 16 < h.val % 16 → h.val / 16 + h.val % 16 ≤ 15 →
      dst + 2 ≤ m.output.length →
      ∃ m' top bottom, CCC_decode_blocks m dst src 1 = some (src + 2, m') ∧
        m'.output[dst]? = some top ∧ m'.output[dst + 1]? = some bottom ∧
        (doc_color_lut h).color1
          + ((doc_color_lut h).color0 &&& doc_full_block_masks b1) < 2 ^ 32 ∧
        (doc_color_lut h).color1
          + ((doc_color_lut h).color0 &&& doc_full_block_masks b2) < 2 ^ 32 ∧
        ∀ i, i < 8 →
          nibble_lane top i = (if b1.val / 2 ^ i % 2 = 0 then max (h.val / 16) (h.val % 16)
            else h.val / 16 + h.val % 16) ∧
          nibble_lane bottom i
            = (if b2.val / 2 ^ i % 2 = 0 then max (h.val / 16) (h.val % 16)
              else h.val / 16 + h.val % 16)) := by
  constructor
  · intro m dst src h b1 b2 hlut hmask hh h1 h2 hgt hsum hout
    obtain ⟨e0, e1⟩ := doc_color_lut_lo16 h
    have hb : spec_block m.tables m.input src
        = some ⟨BlockKind.full,
            ((doc_color_lut h).color0
              + ((doc_color_lut h).color1 &&& doc_full_block_masks b1)) % 2 ^ 32,
            ((doc_color_lut h).color0
              + ((doc_color_lut h).color1 &&& doc_full_block_masks b2)) % 2 ^ 32⟩ := by
      unfold spec_block spec_classify
      simp only [hh]
      rw [hlut, hmask, if_neg (by omega), if_neg (by omega)]
      simp only [h1, h2]
    obtain ⟨ho0, ho1⟩ := after_block_output m dst
      (((doc_color_lut h).color0
        + ((doc_color_lut h).color1 &&& doc_full_block_masks b1)) % 2 ^ 32)
      (((doc_color_lut h).color0
        + ((doc_color_lut h).color1 &&& doc_full_block_masks b2)) % 2 ^ 32) hout
    obtain ⟨n1, l1⟩ := doc_mask_lane_sum (h.val / 16) (h.val % 16) hsum b1
    obtain ⟨n2, l2⟩ := doc_mask_lane_sum (h.val / 16) (h.val % 16) hsum b2
    have hmax : max (h.val / 16) (h.val % 16) = h.val / 16 := by omega
    refine ⟨_, _, _, decode_one_of_spec m dst src _ hb hout, ho0, ho1, n1, n2, ?_⟩
    intro i hi
    rw [hmax]
    exact ⟨l1 i hi, l2 i hi⟩
  · intro m dst src h p b1 b2 hlut hbook hh hp hlt hsum hout
    obtain ⟨e0, e1⟩ := doc_color_lut_lo16 h
    have hb : spec_block m.tables m.input src
        = some ⟨BlockKind.codebook,
            ((doc_color_lut h).color1
              + ((doc_color_lut h).color0 &&& doc_full_block_masks b1)) % 2 ^ 32,
            ((doc_color_lut h).color1
              + ((doc_color_lut h).color0 &&& doc_full_block_masks b2)) % 2 ^ 32⟩ := by
      unfold spec_block spec_classify
      simp only [hh]
      rw [hlut, if_neg (by omega), if_pos (by omega)]
      simp only [hp, hbook]
    obtain ⟨ho0, ho1⟩ := after_block_output m dst
      (((doc_color_lut h).color1
        + ((doc_color_lut h).color0 &&& doc_full_block_masks b1)) % 2 ^ 32)
      (((doc_color_lut h).color1
        + ((doc_color_lut h).color0 &&& doc_full_block_masks b2)) % 2 ^ 32) hout
    have hsum' : h.val % 16 + h.val / 16 ≤ 15 := by omega
    obtain ⟨n1, l1⟩ := doc_mask_lane_sum (h.val % 16) (h.val / 16) hsum' b1
    obtain ⟨n2, l2⟩ := doc_mask_lane_sum (h.val % 16) (h.val / 16) hsum' b2
    have hmax : max (h.val / 16) (h.val % 16) = h.val % 16 := by omega
    have hcomm : h.val / 16 + h.val % 16 = h.val % 16 + h.val / 16 := Nat.add_comm _ _
    refine ⟨_, _, _, decode_one_of_spec m dst src _ hb hout, ho0, ho1, n1, n2, ?_⟩
    intro i hi
    rw [hmax, hcomm]
    exact ⟨l1 i hi, l2 i hi⟩

/-- C19 on the documented tables: the full record `[0x21, 0x01, 0x80]` stores
`0x22222223` and `0x32222222`: lane 0 of the top word and lane 7 of the bottom
word are `2 + 1`, every other lane is 2. -/
theorem carry_free_lanes_witness :
    ∃ m' top bottom,
      CCC_decode_blocks (demo_memory [0x21, 0x01, 0x80] [7, 7]) 0 0 1 = some (0 + 3, m') ∧
      m'.output[0]? = some top ∧ m'.output[0 + 1]? = some bottom ∧
      (doc_color_lut 0x21).color0
        + ((doc_color_lut 0x21).color1 &&& doc_full_block_masks 0x01) < 2 ^ 32 ∧
      (doc_color_lut 0x21).color0
        + ((doc_color_lut 0x21).color1 &&& doc_full_block_masks 0x80) < 2 ^ 32 ∧
      ∀ i, i < 8 →
        nibble_lane top i = (if (0x01 : Fin 256).val / 2 ^ i % 2 = 0
          then max ((0x21 : Fin 256).val / 16) ((0x21 : Fin 256).val % 16)
          else (0x21 : Fin 256).val / 16 + (0x21 : Fin 256).val % 16) ∧
        nibble_lane bottom i = (if (0x80 : Fin 256).val / 2 ^ i % 2 = 0
          then max ((0x21 : Fin 256).val / 16) ((0x21 : Fin 256).val % 16)
          else (0x21 : Fin 256).val / 16 + (0x21 : Fin 256).val % 16) :=
  carry_free_lanes.1 (demo_memory [0x21, 0x01, 0x80] [7, 7]) 0 0 0x21 0x01 0x80 rfl rfl
    (by decide) (by decide) (by decide) (by decide) (by decide) (by decide)

end CCC
